import Mathlib

/-!
# Verification of the outline-mcp tool generator (`scripts/generate-tools.mjs`)

This file gives a shallow embedding of the schema compiler in
`scripts/generate-tools.mjs` and proves properties about it.

Modelling choices (all stated here once):

* JSON scalars that appear in schemas (`enum` members, `example` values) are
  modelled by `JLit`; numeric literals are modelled as integers, which covers
  every value the claims mention.  Full JSON values fed to a compiled
  validator are modelled by `JVal`.
* A schema object is modelled by the inductive `Schema`, one field per
  property the script reads: `$ref`, `allOf`, `oneOf`/`anyOf` (the script
  only tests their truthiness, so they are booleans), `type`, `properties`
  (an insertion-ordered association list, like a JS object), `required`,
  `additionalProperties` (absent, boolean, or a schema), `items`, `enum`,
  `nullable`, `description`, `example`.  An absent JS property is `none`.
* The OpenAPI document is modelled by `Spec`: its `paths` map and the
  reference table.  The script's `resolveRef` walks the raw document along a
  `#/a/b/c` pointer; here the table is flattened to a finite map from the
  full pointer string to the schema it denotes, and `resolveRef` checks the
  `#/` prefix and looks the pointer up, throwing the same error strings.
* JS `Set` mutation: `derefSchema` mutates its `seenRefs` set in place
  (`seenRefs.add`), and that same set object is shared by all `allOf`
  branches inside `mergeAllOfSchemas`; `schemaToZodExpression` passes a
  fresh copy (`new Set(seenRefs)`) to each child.  The embedding makes this
  explicit: `derefSchema` returns the updated set and `mergeAllOfSchemas`
  threads it through the branches, while the validator compiler hands the
  same post-dereference set value to every child (value passing = a fresh
  copy per child).
* Recursion: in the script every recursive call increases `depth` by one and
  recursion stops as soon as `depth > MAX_SCHEMA_DEPTH`.  The embedding uses
  structural recursion on `fuel := MAX_SCHEMA_DEPTH + 1 - depth`.  The
  fuel-zero case fires exactly when `depth ≥ MAX_SCHEMA_DEPTH + 1`, i.e.
  exactly when the script's `depth > MAX_SCHEMA_DEPTH` guard fires, and it
  returns the same value as that guard, so the fuel clause is the depth
  guard and no behaviour is added or lost.  The guard is nevertheless kept
  verbatim in the positive-fuel branch, mirroring the source text.
* The compiled zod expression is modelled as an AST (`ZodExpr`) instead of
  the source-code string the script emits; each constructor corresponds to
  one string form the script builds (`z.object(...).strict()`,
  `.passthrough()`, `.catchall(e)`, `.optional()`, `.nullable()`,
  `z.enum([...])`, `z.literal(v)`, `z.union([...])`, `z.array(e)`,
  `z.string()`, `z.number()`, `z.boolean()`, `z.any()`, `.describe(s)`).
  `accepts` gives the validation semantics of that AST, following zod:
  strict objects reject undeclared keys, passthrough ignores them, catchall
  checks them against the secondary validator; `.optional()` additionally
  accepts an absent key, `.nullable()` additionally accepts `null`,
  `.describe` does not affect validation.
* `main` aborts (process exit, nothing written) exactly when the generation
  pipeline returns an error, so emission of an artifact is modelled by
  `generateTools` returning `.ok`.
-/

/-- JSON scalar literal, as found in `enum` lists and `example` values. -/
inductive JLit where
  | str (s : String)
  | num (n : Int)
  | bool (b : Bool)
  | null
deriving DecidableEq

/-- A JSON value submitted to a compiled validator. -/
inductive JVal where
  | null
  | bool (b : Bool)
  | num (n : Int)
  | str (s : String)
  | arr (vs : List JVal)
  | obj (kvs : List (String × JVal))

/-- One schema fragment, one constructor field per property the script reads.
Field order: `$ref`, `allOf`, `oneOf` (truthiness), `anyOf` (truthiness),
`type`, `properties`, `required`, `additionalProperties`, `items`, `enum`,
`nullable` (truthiness), `description`, `example`. -/
inductive Schema where
  | mk (ref : Option String)
       (allOf : Option (List Schema))
       (oneOf : Bool)
       (anyOf : Bool)
       (type : Option String)
       (properties : Option (List (String × Schema)))
       (required : Option (List String))
       (additionalProperties : Option (Sum Bool Schema))
       (items : Option Schema)
       (enumVals : Option (List JLit))
       (nullable : Bool)
       (description : Option String)
       (exampleVal : Option JLit)

def Schema.ref? : Schema → Option String
  | .mk r _ _ _ _ _ _ _ _ _ _ _ _ => r

def Schema.allOf? : Schema → Option (List Schema)
  | .mk _ a _ _ _ _ _ _ _ _ _ _ _ => a

def Schema.oneOfB : Schema → Bool
  | .mk _ _ o _ _ _ _ _ _ _ _ _ _ => o

def Schema.anyOfB : Schema → Bool
  | .mk _ _ _ a _ _ _ _ _ _ _ _ _ => a

def Schema.type? : Schema → Option String
  | .mk _ _ _ _ t _ _ _ _ _ _ _ _ => t

def Schema.props? : Schema → Option (List (String × Schema))
  | .mk _ _ _ _ _ p _ _ _ _ _ _ _ => p

def Schema.required? : Schema → Option (List String)
  | .mk _ _ _ _ _ _ r _ _ _ _ _ _ => r

def Schema.addProps? : Schema → Option (Sum Bool Schema)
  | .mk _ _ _ _ _ _ _ a _ _ _ _ _ => a

def Schema.items? : Schema → Option Schema
  | .mk _ _ _ _ _ _ _ _ i _ _ _ _ => i

def Schema.enum? : Schema → Option (List JLit)
  | .mk _ _ _ _ _ _ _ _ _ e _ _ _ => e

def Schema.nullableB : Schema → Bool
  | .mk _ _ _ _ _ _ _ _ _ _ n _ _ => n

def Schema.descr? : Schema → Option String
  | .mk _ _ _ _ _ _ _ _ _ _ _ d _ => d

def Schema.example? : Schema → Option JLit
  | .mk _ _ _ _ _ _ _ _ _ _ _ _ e => e

/-- The empty schema `{}`, the value the script uses for unresolved nodes. -/
def Schema.empty : Schema :=
  .mk none none false false none none none none none none false none none

/-- An operation object; the request schema stands for
`requestBody.content."application/json".schema` and the response schemas for
`responses."200"/"201".content."application/json".schema`. -/
structure Operation where
  operationId : Option String
  summary : Option String
  description : Option String
  requestSchema : Option Schema
  response200 : Option Schema
  response201 : Option Schema

/-- One path item: the five HTTP methods the script probes. -/
structure PathItem where
  post : Option Operation
  get : Option Operation
  put : Option Operation
  patch : Option Operation
  delete : Option Operation

/-- The OpenAPI document: the `paths` map plus the reference table, the
latter flattened to a map from full `#/...` pointer string to target. -/
structure Spec where
  paths : List (String × PathItem)
  refTable : List (String × Schema)

def MAX_SCHEMA_DEPTH : Nat := 8

/-- Association-list lookup used for the flattened reference table. -/
def lookupRef (spec : Spec) (r : String) : Option Schema :=
  (spec.refTable.find? (fun kv => kv.1 == r)).map (fun kv => kv.2)

/-- `ref.startsWith("#/")`. -/
def refHasPointerForm (s : String) : Bool :=
  match s.toList with
  | '#' :: '/' :: _ => true
  | _ => false

/-- `resolveRef`: refs not of the form `#/...` throw `Unsupported $ref`, a
pointer missing from the document throws `Unresolvable $ref`. -/
def resolveRef (spec : Spec) (ref : String) : Except String Schema :=
  if !(refHasPointerForm ref) then
    .error ("Unsupported $ref: " ++ ref)
  else
    match lookupRef spec ref with
    | some t => .ok t
    | none => .error ("Unresolvable $ref: " ++ ref)

/-- `src.foldl` step of `Object.assign(target, src)`: overwrite in place if
the key exists (keeping its position), otherwise append. -/
def setKey (l : List (String × Schema)) (k : String) (v : Schema) :
    List (String × Schema) :=
  if l.any (fun p => p.1 == k) then
    l.map (fun p => if p.1 == k then (k, v) else p)
  else
    l ++ [(k, v)]

/-- `Object.assign(target, src)` on association lists. -/
def objAssign (target src : List (String × Schema)) : List (String × Schema) :=
  src.foldl (fun acc kv => setKey acc kv.1 kv.2) target

/-- The pure merging part of `mergeAllOfSchemas`, applied to the already
resolved branches: union the property maps with `Object.assign` (last branch
wins), concatenate the `required` lists without deduplication, and always
type the result `object`; `required` is omitted when empty. -/
def mergeResolvedList (rs : List Schema) : Schema :=
  let props := rs.foldl
    (fun acc r => match r.props? with
      | some ps => objAssign acc ps
      | none => acc) []
  let req := rs.foldl
    (fun acc r => match r.required? with
      | some l => acc ++ l
      | none => acc) []
  Schema.mk none none false false (some "object") (some props)
    (if req.isEmpty then none else some req) none none none false none none

/-- `derefSchema`, structurally recursive on `fuel = MAX_SCHEMA_DEPTH + 1 -
depth` (see the header).  Returns the resolved schema together with the
mutated `seenRefs` set.  The `allOf` case is the inlined body of
`mergeAllOfSchemas`: every branch is resolved at `depth + 1` with the same
(threaded) set, then the results are merged. -/
def derefSchemaF (spec : Spec) :
    Nat → Option Schema → List String → Nat → Except String (Schema × List String)
  | _, none, seenRefs, _ => .ok (Schema.empty, seenRefs)
  | 0, some _, seenRefs, _ => .ok (Schema.empty, seenRefs)
  | fuel + 1, some schema, seenRefs, depth =>
    if depth > MAX_SCHEMA_DEPTH then .ok (Schema.empty, seenRefs)
    else match schema.ref? with
    | some r =>
      if seenRefs.contains r then .ok (Schema.empty, seenRefs)
      else do
        let target ← resolveRef spec r
        derefSchemaF spec fuel (some target) (seenRefs ++ [r]) (depth + 1)
    | none =>
      match schema.allOf? with
      | some branches => do
        let st ← branches.foldlM
          (fun (acc : List Schema × List String) b => do
            let rs ← derefSchemaF spec fuel (some b) acc.2 (depth + 1)
            pure (acc.1 ++ [rs.1], rs.2))
          (([] : List Schema), seenRefs)
        .ok (mergeResolvedList st.1, st.2)
      | none => .ok (schema, seenRefs)

/-- `derefSchema(spec, schema, seenRefs, depth)`. -/
def derefSchema (spec : Spec) (schema : Option Schema) (seenRefs : List String)
    (depth : Nat) : Except String (Schema × List String) :=
  derefSchemaF spec (MAX_SCHEMA_DEPTH + 1 - depth) schema seenRefs depth

/-- `mergeAllOfSchemas(spec, schemas, seenRefs, depth)`: resolve every branch
at `depth + 1`, threading the shared `seenRefs` set through the branches in
order, then merge. -/
def mergeAllOfSchemas (spec : Spec) (schemas : List Schema)
    (seenRefs : List String) (depth : Nat) :
    Except String (Schema × List String) := do
  let st ← schemas.foldlM
    (fun (acc : List Schema × List String) b => do
      let rs ← derefSchema spec (some b) acc.2 (depth + 1)
      pure (acc.1 ++ [rs.1], rs.2))
    (([] : List Schema), seenRefs)
  .ok (mergeResolvedList st.1, st.2)

/-- Rendering of a JSON literal, `JSON.stringify` restricted to the scalars
we model (strings in the schemas at hand need no escaping). -/
def JLit.render : JLit → String
  | .str s => "\"" ++ s ++ "\""
  | .num n => toString n
  | .bool b => if b then "true" else "false"
  | .null => "null"

/-- The `mode` option of the validator compiler. -/
inductive Mode where
  | input
  | output
deriving DecidableEq

/-- Compiled zod validator as an AST; each constructor is one expression
form the script emits (see the header). -/
inductive ZodExpr where
  | any
  | string
  | number
  | boolean
  | lit (v : JLit)
  | enum (vs : List String)
  | union (es : List ZodExpr)
  | array (e : ZodExpr)
  | objectStrict (props : List (String × ZodExpr))
  | objectPassthrough (props : List (String × ZodExpr))
  | objectCatchall (props : List (String × ZodExpr)) (catchallExpr : ZodExpr)
  | optional (e : ZodExpr)
  | nullable (e : ZodExpr)
  | describe (e : ZodExpr) (doc : String)

mutual
/-- Does a validator accept an absent value (zod: `parse(undefined)`)?
`z.any()` and `.optional()` do; `.nullable()` and `.describe` defer to the
wrapped validator; a union does if some option does; nothing else does. -/
def acceptsUndef : ZodExpr → Bool
  | .any => true
  | .optional _ => true
  | .nullable e => acceptsUndef e
  | .describe e _ => acceptsUndef e
  | .union es => acceptsUndefL es
  | _ => false
def acceptsUndefL : List ZodExpr → Bool
  | [] => false
  | e :: rest => acceptsUndef e || acceptsUndefL rest
end

/-- First-match association lookup on a JSON object value. -/
def lookupJ (k : String) : List (String × JVal) → Option JVal
  | [] => none
  | kv :: rest => if kv.1 == k then some kv.2 else lookupJ k rest

/-- `z.literal(l).parse(v)` succeeds iff `v` is that scalar. -/
def jlitMatches : JLit → JVal → Bool
  | .str s, .str s' => s == s'
  | .num n, .num n' => n == n'
  | .bool b, .bool b' => b == b'
  | .null, .null => true
  | _, _ => false

mutual
/-- zod validation semantics of a compiled expression.  Objects check every
declared property (an absent key must be tolerated by the property
validator, i.e. `acceptsUndef`); a strict object additionally requires every
key of the value to be declared; a catchall object validates undeclared
keys' values against the secondary validator; passthrough ignores them. -/
def accepts : ZodExpr → JVal → Bool
  | .any, _ => true
  | .string, v => match v with | .str _ => true | _ => false
  | .number, v => match v with | .num _ => true | _ => false
  | .boolean, v => match v with | .bool _ => true | _ => false
  | .lit l, v => jlitMatches l v
  | .enum vs, v => match v with | .str s => vs.contains s | _ => false
  | .union es, v => acceptsAny es v
  | .array e, v =>
    match v with | .arr vs => acceptsList e vs | _ => false
  | .objectStrict props, v =>
    match v with
    | .obj kvs =>
      kvs.all (fun kv => props.any (fun p => p.1 == kv.1)) && acceptsProps props kvs
    | _ => false
  | .objectPassthrough props, v =>
    match v with
    | .obj kvs => acceptsProps props kvs
    | _ => false
  | .objectCatchall props ce, v =>
    match v with
    | .obj kvs => acceptsProps props kvs && acceptsExtra ce (props.map (fun p => p.1)) kvs
    | _ => false
  | .optional e, v => accepts e v
  | .nullable e, v => match v with | .null => true | _ => accepts e v
  | .describe e _, v => accepts e v
termination_by e v => (sizeOf e, sizeOf v)
def acceptsAny : List ZodExpr → JVal → Bool
  | [], _ => false
  | e :: rest, v => accepts e v || acceptsAny rest v
termination_by es v => (sizeOf es, sizeOf v)
def acceptsList : ZodExpr → List JVal → Bool
  | _, [] => true
  | e, v :: vs => accepts e v && acceptsList e vs
termination_by e vs => (sizeOf e, sizeOf vs)
def acceptsProps : List (String × ZodExpr) → List (String × JVal) → Bool
  | [], _ => true
  | (k, e) :: rest, kvs =>
    (match lookupJ k kvs with
     | some v => accepts e v
     | none => acceptsUndef e) && acceptsProps rest kvs
termination_by ps kvs => (sizeOf ps, sizeOf kvs)
def acceptsExtra : ZodExpr → List String → List (String × JVal) → Bool
  | _, _, [] => true
  | ce, declared, (k, v) :: rest =>
    (declared.contains k || accepts ce v) && acceptsExtra ce declared rest
termination_by ce _ kvs => (sizeOf ce, sizeOf kvs)
end

/-- Character class `[a-z0-9]`, the first group of the boundary regex. -/
def isLowerOrDigit (c : Char) : Bool :=
  ('a' ≤ c && c ≤ 'z') || ('0' ≤ c && c ≤ '9')

/-- Character class `[A-Z]`, the second group of the boundary regex. -/
def isUpperAZ (c : Char) : Bool := 'A' ≤ c && c ≤ 'Z'

/-- Character class `[a-zA-Z0-9_]`. -/
def isWordChar (c : Char) : Bool :=
  ('a' ≤ c && c ≤ 'z') || ('A' ≤ c && c ≤ 'Z') || ('0' ≤ c && c ≤ '9') || c == '_'

/-- `.replace(/^\//, "")`: strip a single leading slash. -/
def stripLeadingSlash (s : String) : String :=
  match s.toList with
  | '/' :: rest => String.mk rest
  | _ => s

/-- `.replace(/([a-z0-9])([A-Z])/g, "$1_$2")`: since the two groups are
disjoint single-character classes, the global replacement inserts an
underscore between every adjacent pair (lower-or-digit, upper). -/
def insertBoundaries : List Char → List Char
  | a :: b :: rest =>
    if isLowerOrDigit a && isUpperAZ b then a :: '_' :: insertBoundaries (b :: rest)
    else a :: insertBoundaries (b :: rest)
  | l => l

/-- `.replace(/__+/g, "_")`: collapse every run of underscores to one. -/
def collapseUnderscores : List Char → List Char
  | '_' :: '_' :: rest => collapseUnderscores ('_' :: rest)
  | c :: rest => c :: collapseUnderscores rest
  | [] => []

/-- `toSnakeCase` from the script, as the same six-step pipeline. -/
def toSnakeCase (value : String) : String :=
  let s1 := stripLeadingSlash value
  let s2 := String.mk (s1.toList.map (fun c => if c == '.' then '_' else c))
  let s3 := String.mk (insertBoundaries s2.toList)
  let s4 := String.mk (s3.toList.map (fun c => if isWordChar c then c else '_'))
  let s5 := String.mk (collapseUnderscores s4.toList)
  String.mk (s5.toList.map Char.toLower)

/-- Alternatives of `READ_ONLY_PATTERN`. -/
def READ_ONLY_PATTERN : List String :=
  ["list", "info", "search", "config", "redirect", "export", "history",
   "diff", "view", "views", "count", "counts", "stats", "ping", "check"]

/-- Alternatives of `DESTRUCTIVE_PATTERN`. -/
def DESTRUCTIVE_PATTERN : List String := ["delete", "remove", "destroy"]

/-- Substring test: does `needle` occur contiguously in the second list? -/
def infixTest (needle : List Char) : List Char → Bool
  | [] => needle.isEmpty
  | c :: rest => needle.isPrefixOf (c :: rest) || infixTest needle rest

/-- ASCII lowercasing, `s.toLowerCase()` for the identifiers at hand. -/
def lowerAscii (s : String) : String := String.mk (s.toList.map Char.toLower)

/-- `/alt1|alt2|.../i.test(s)`: case-insensitive containment of one of the
(lowercase) alternatives. -/
def patternTest (alternatives : List String) (s : String) : Bool :=
  alternatives.any (fun t => infixTest t.toList (lowerAscii s).toList)

/-- The per-property wrapping step of the compiler (lines 112–117 of the
script): a property not in the required set is marked `.optional()`, and
under output mode additionally `.nullable()`. -/
def propertyEntry (required : List String) (isOutput : Bool) (key : String)
    (pe : ZodExpr) : ZodExpr :=
  if !(required.contains key) then
    (if isOutput then ZodExpr.nullable (ZodExpr.optional pe)
     else ZodExpr.optional pe)
  else pe

/-- The final wrapping step of the compiler (lines 174–187 of the script):
wrap with `.nullable()` when the nullable flag is set, then attach the
documentation string built from the description (when a non-empty string)
and the rendered example. -/
def finishExpression (resolved : Schema) (base : ZodExpr) : ZodExpr :=
  let base := if resolved.nullableB then ZodExpr.nullable base else base
  let descriptionParts :=
    (match resolved.descr? with
     | some d => if d == "" then [] else [d]
     | none => []) ++
    (match resolved.example? with
     | some ex => ["Example: " ++ ex.render]
     | none => [])
  if descriptionParts.isEmpty then base
  else ZodExpr.describe base (String.intercalate " " descriptionParts)

/-- `schemaToZodExpression`, structurally recursive on
`fuel = MAX_SCHEMA_DEPTH + 1 - depth` exactly like `derefSchemaF` (the
fuel-zero clause is the `depth > MAX_SCHEMA_DEPTH → z.any()` early return;
at `depth > MAX_SCHEMA_DEPTH` the preceding `derefSchema` call is the
identity on the seen-set and cannot throw).  Every child node is compiled at
`depth + 1` with a fresh copy of the post-dereference seen-set. -/
def schemaToZodF (spec : Spec) :
    Nat → Option Schema → Mode → Nat → List String → Except String ZodExpr
  | 0, _, _, _, _ => .ok .any
  | fuel + 1, schema, mode, depth, seenRefs => do
    let rs ← derefSchema spec schema seenRefs depth
    let resolved := rs.1
    let seen' := rs.2
    if depth > MAX_SCHEMA_DEPTH then .ok .any
    else if resolved.oneOfB || resolved.anyOfB then .ok .any
    else
      let isOutput := mode == Mode.output
      let schemaType := resolved.type?
      let hasProperties := resolved.props?.isSome
      do
      let base ←
        if schemaType == some "object" || hasProperties then do
          let properties := resolved.props?.getD []
          let required := resolved.required?.getD []
          let entries ← properties.mapM (fun p => do
            let pe ← schemaToZodF spec fuel (some p.2) mode (depth + 1) seen'
            pure (p.1, propertyEntry required isOutput p.1 pe))
          if isOutput then
            .ok (ZodExpr.objectPassthrough entries)
          else match resolved.addProps? with
            | some (.inl true) => .ok (ZodExpr.objectPassthrough entries)
            | some (.inr apSchema) => do
              let ce ← schemaToZodF spec fuel (some apSchema) mode (depth + 1) seen'
              .ok (ZodExpr.objectCatchall entries ce)
            | _ => .ok (ZodExpr.objectStrict entries)
        else if schemaType == some "array" then
          match resolved.items? with
          | some itemSchema => do
            let ie ← schemaToZodF spec fuel (some itemSchema) mode (depth + 1) seen'
            .ok (ZodExpr.array ie)
          | none => .ok (ZodExpr.array ZodExpr.any)
        else if schemaType == some "string" then
          match resolved.enum? with
          | some enumList =>
            if enumList.isEmpty then .ok ZodExpr.string
            else
              let stringValues := enumList.filterMap
                (fun l => match l with | .str s => some s | _ => none)
              if isOutput then .ok ZodExpr.string
              else if stringValues.length == enumList.length then
                .ok (ZodExpr.enum stringValues)
              else
                let literals := enumList.map ZodExpr.lit
                .ok (if literals.length == 1 then literals.headD ZodExpr.any
                     else ZodExpr.union literals)
          | none => .ok ZodExpr.string
        else if schemaType == some "integer" || schemaType == some "number" then
          .ok ZodExpr.number
        else if schemaType == some "boolean" then
          .ok ZodExpr.boolean
        else
          match resolved.enum? with
          | some enumList =>
            if enumList.isEmpty then .ok ZodExpr.any
            else if isOutput then .ok ZodExpr.any
            else .ok (ZodExpr.union (enumList.map ZodExpr.lit))
          | none => .ok ZodExpr.any
      .ok (finishExpression resolved base)

/-- `schemaToZodExpression(spec, schema, options, depth, seenRefs)`. -/
def schemaToZodExpression (spec : Spec) (schema : Option Schema) (mode : Mode)
    (depth : Nat) (seenRefs : List String) : Except String ZodExpr :=
  schemaToZodF spec (MAX_SCHEMA_DEPTH + 1 - depth) schema mode depth seenRefs

/-- `buildInputSchemaExpression(spec, operation)`. -/
def buildInputSchemaExpression (spec : Spec) (operation : Operation) :
    Except String ZodExpr :=
  match operation.requestSchema with
  | none => .ok (ZodExpr.objectStrict [])
  | some requestSchema => do
    let rs ← derefSchema spec (some requestSchema) [] 0
    let resolved := rs.1
    if resolved.type? == some "object" || resolved.props?.isSome then
      schemaToZodExpression spec (some resolved) Mode.input 0 []
    else do
      let payloadExpression ← schemaToZodExpression spec (some resolved) Mode.input 0 []
      .ok (ZodExpr.objectStrict [("payload", payloadExpression)])

/-- `buildOutputSchemaExpression(spec, operation)`: prefer the 200 response
schema, fall back to 201; compile only object-shaped resolved schemas, in
output mode, from the original (unresolved) response schema. -/
def buildOutputSchemaExpression (spec : Spec) (operation : Operation) :
    Except String (Option ZodExpr) :=
  let responseSchema? :=
    match operation.response200 with
    | some s => some s
    | none => operation.response201
  match responseSchema? with
  | none => .ok none
  | some responseSchema => do
    let rs ← derefSchema spec (some responseSchema) [] 0
    let resolved := rs.1
    if resolved.type? == some "object" || resolved.props?.isSome then do
      let e ← schemaToZodExpression spec (some responseSchema) Mode.output 0 []
      .ok (some e)
    else .ok none

/-- `hasPagination(spec, operation)`. -/
def hasPagination (spec : Spec) (operation : Operation) : Except String Bool :=
  match operation.requestSchema with
  | none => .ok false
  | some requestSchema => do
    let rs ← derefSchema spec (some requestSchema) [] 0
    let properties := rs.1.props?.getD []
    .ok (properties.any (fun p => p.1 == "limit") ||
         properties.any (fun p => p.1 == "offset"))

/-- The annotation set of a generated tool. -/
structure ToolAnnotations where
  readOnlyHint : Bool
  destructiveHint : Bool
  idempotentHint : Bool
  openWorldHint : Bool
deriving DecidableEq

/-- One generated tool definition. -/
structure ToolDefinition where
  name : String
  title : String
  description : String
  methodName : String
  inputSchema : ZodExpr
  outputSchema : Option ZodExpr
  annotations : ToolAnnotations

/-- The loop body of `generateTools` for a single operation found at
`pathKey`.  Field order of the result: name, title, description,
methodName, inputSchema, outputSchema, annotations. -/
def generateTool (spec : Spec) (pathKey : String) (operation : Operation) :
    Except String ToolDefinition := do
  let methodName := stripLeadingSlash pathKey
  let operationId := operation.operationId.getD methodName
  let toolName := "outline_" ++ toSnakeCase operationId
  let title := operation.summary.getD toolName
  let description := operation.description.getD (operation.summary.getD "")
  let inputSchema ← buildInputSchemaExpression spec operation
  let outputSchema ← buildOutputSchemaExpression spec operation
  let readOnlyHint := patternTest READ_ONLY_PATTERN operationId
  let destructiveHint := patternTest DESTRUCTIVE_PATTERN operationId
  let pag ← hasPagination spec operation
  let description :=
    if pag then
      if description == "" then "Pagination: use limit and offset to page results."
      else description ++ "\n\nPagination: use limit and offset to page results."
    else description
  .ok ⟨toolName, title, description, methodName, inputSchema, outputSchema,
       ⟨readOnlyHint, destructiveHint, readOnlyHint, true⟩⟩

/-- The operations of a path item, in the fixed method priority order
post, get, put, patch, delete. -/
def opsOfPathItem (item : PathItem) : List Operation :=
  [item.post, item.get, item.put, item.patch, item.delete].filterMap id

/-- `generateTools(spec)`: one tool per operation, paths in document order,
methods in the fixed priority order.  An error anywhere aborts the whole
run (in `main` the error path exits without writing the artifact). -/
def generateTools (spec : Spec) : Except String (List ToolDefinition) :=
  spec.paths.foldlM
    (fun acc pkpi => do
      let ts ← (opsOfPathItem pkpi.2).mapM (generateTool spec pkpi.1)
      pure (acc ++ ts))
    []

/-! ## Concrete schemas and documents used by the worked examples -/

/-- `{"type":"string"}`. -/
def strSchema : Schema :=
  .mk none none false false (some "string") none none none none none false none none

/-- `{"$ref":"#/components/schemas/A"}`. -/
def refASchema : Schema :=
  .mk (some "#/components/schemas/A") none false false none none none none none none
    false none none

/-- A document whose schema `A` is a direct self-reference. -/
def selfRefSpec : Spec := ⟨[], [("#/components/schemas/A", refASchema)]⟩

/-- `{"type":"object","properties":{"a":{"type":"string"}},"required":["a"]}`. -/
def objASchema : Schema :=
  .mk none none false false (some "object") (some [("a", strSchema)]) (some ["a"])
    none none none false none none

/-- A document where `A` is the non-cyclic object schema `objASchema`. -/
def objASpec : Spec := ⟨[], [("#/components/schemas/A", objASchema)]⟩

/-- A document where `A` is the plain string schema. -/
def strASpec : Spec := ⟨[], [("#/components/schemas/A", strSchema)]⟩

/-- The empty document. -/
def emptySpec : Spec := ⟨[], []⟩

/-- `{"type":"object","properties":{"id":{"type":"string"}},"required":["id"]}`,
the worked example of the specification. -/
def exSchema : Schema :=
  .mk none none false false (some "object") (some [("id", strSchema)]) (some ["id"])
    none none none false none none

/-- An object whose two properties both reference the same non-cyclic schema. -/
def twoRefPropSchema : Schema :=
  .mk none none false false (some "object")
    (some [("x", refASchema), ("y", refASchema)]) (some ["x", "y"])
    none none none false none none

/-! ## The generated tool record as a function of identifier and path -/

/-- The canonical tool name the generator derives for the operation found at
`pathKey`: namespace token plus snake-cased identifier, the identifier
falling back to the path with its leading slash stripped. -/
def deriveToolName (pathKey : String) (op : Operation) : String :=
  "outline_" ++ toSnakeCase (op.operationId.getD (stripLeadingSlash pathKey))

/-- C7 counterexample: the claim inserts an underscore only at
lowercase-LETTER-to-uppercase boundaries, but the script's regex group is
`[a-z0-9]`, so a digit followed by an uppercase letter also gets an
underscore: identifier `a1B` derives `outline_a1_b`, while the claim's
pipeline derives `outline_a1b`. -/
def claimBoundaries : List Char → List Char
  | a :: b :: rest =>
    if ('a' ≤ a && a ≤ 'z') && isUpperAZ b then a :: '_' :: claimBoundaries (b :: rest)
    else a :: claimBoundaries (b :: rest)
  | l => l

/-- The derivation pipeline exactly as claim C7 words it (underscore only at
lowercase-letter-to-uppercase boundaries); stated from the claim, not the
source, for refinement comparison against `toSnakeCase`. -/
def claimSnakeCase (value : String) : String :=
  let s1 := stripLeadingSlash value
  let s2 := String.mk (s1.toList.map (fun c => if c == '.' then '_' else c))
  let s3 := String.mk (claimBoundaries s2.toList)
  let s4 := String.mk (s3.toList.map (fun c => if isWordChar c then c else '_'))
  let s5 := String.mk (collapseUnderscores s4.toList)
  String.mk (s5.toList.map Char.toLower)

/-- The claim-worded canonical name. -/
def claimToolName (value : String) : String := "outline_" ++ claimSnakeCase value

/-- The operations of a document, paired with their path, in generation
order (path order, then method priority order). -/
def specOps (spec : Spec) : List (String × Operation) :=
  spec.paths.flatMap (fun pkpi => (opsOfPathItem pkpi.2).map (fun op => (pkpi.1, op)))

/-- An operation object with every optional part absent. -/
def bareOp : Operation := ⟨none, none, none, none, none, none⟩

/-- A document whose single path hosts both a POST and a GET operation,
neither carrying an identifier. -/
def dupSpec : Spec := ⟨[("/x", ⟨some bareOp, some bareOp, none, none, none⟩)], []⟩

/-! ## The `Object.assign` algebra behind `mergeAllOfSchemas` -/

/-- First-match association lookup on a property map. -/
def lookupS (k : String) : List (String × Schema) → Option Schema
  | [] => none
  | p :: rest => if p.1 == k then some p.2 else lookupS k rest

/-- `{"type":"object","properties":{"b":{"type":"string"}},"required":["b"]}`. -/
def objBSchema : Schema :=
  .mk none none false false (some "object") (some [("b", strSchema)]) (some ["b"])
    none none none false none none

/-- `{"type":"string","enum":["a","b"]}`. -/
def enumStrSchema : Schema :=
  .mk none none false false (some "string") none none none none
    (some [.str "a", .str "b"]) false none none

/-- `{"type":"string","enum":["a",5]}` — a mixed-type enumeration. -/
def enumMixedSchema : Schema :=
  .mk none none false false (some "string") none none none none
    (some [.str "a", .num 5]) false none none

/-- `{"type":"object","properties":{"note":{"type":"string"}}}` — one
optional property. -/
def optSchema : Schema :=
  .mk none none false false (some "object") (some [("note", strSchema)]) none
    none none none false none none

/-! ## Reference closedness (claim C5) -/

mutual
/-- Every `$ref` pointer string occurring anywhere in a schema tree, i.e. in
every position the compiler can reach: the node's own `$ref`, `allOf`
branches, properties, a schema-valued `additionalProperties`, and `items`. -/
def Schema.refsList : Schema → List String
  | .mk r ao _ _ _ ps _ ap it _ _ _ _ =>
    r.toList ++ refsListAO ao ++ refsListPO ps ++ refsListAP ap ++ refsListIT it
def refsListAO : Option (List Schema) → List String
  | some bs => refsListL bs
  | none => []
def refsListPO : Option (List (String × Schema)) → List String
  | some l => refsListP l
  | none => []
def refsListAP : Option (Sum Bool Schema) → List String
  | some (.inr s) => Schema.refsList s
  | _ => []
def refsListIT : Option Schema → List String
  | some s => Schema.refsList s
  | none => []
def refsListL : List Schema → List String
  | [] => []
  | s :: rest => Schema.refsList s ++ refsListL rest
def refsListP : List (String × Schema) → List String
  | [] => []
  | p :: rest => Schema.refsList p.2 ++ refsListP rest
end

/-- The `$ref` pointers of an operation's request and response schemas. -/
def Operation.refsList (op : Operation) : List String :=
  (match op.requestSchema with | some s => s.refsList | none => []) ++
  (match op.response200 with | some s => s.refsList | none => []) ++
  (match op.response201 with | some s => s.refsList | none => [])

/-- Every `$ref` pointer of the document: those inside reference-table
targets and those inside operation schemas. -/
def Spec.allRefsList (spec : Spec) : List String :=
  spec.refTable.flatMap (fun kv => kv.2.refsList) ++
  spec.paths.flatMap (fun pkpi =>
    (opsOfPathItem pkpi.2).flatMap (fun op => op.refsList))

/-- A pointer that resolves: it has the `#/` form and is in the table. -/
def RefOk (spec : Spec) (r : String) : Prop :=
  refHasPointerForm r = true ∧ (lookupRef spec r).isSome = true

/-- Every pointer in the schema tree resolves. -/
def SchemaOk (spec : Spec) (s : Schema) : Prop :=
  ∀ r ∈ s.refsList, RefOk spec r

/-- The document has no dangling reference anywhere. -/
def SpecClosed (spec : Spec) : Prop :=
  ∀ r ∈ spec.allRefsList, RefOk spec r

/-- Every reference-table target is closed. -/
def TableOk (spec : Spec) : Prop :=
  ∀ kv ∈ spec.refTable, SchemaOk spec kv.2

/-- All schemas attached to an operation are closed. -/
def OpOk (spec : Spec) (op : Operation) : Prop :=
  (∀ s, op.requestSchema = some s → SchemaOk spec s) ∧
  (∀ s, op.response200 = some s → SchemaOk spec s) ∧
  (∀ s, op.response201 = some s → SchemaOk spec s)

/-- A schema that is nothing but a dangling pointer `{"$ref":"#/missing"}`. -/
def refMissingSchema : Schema :=
  .mk (some "#/missing") none false false none none none none none none false none none

/-- A document whose reference table holds an unused schema containing a
dangling pointer, while the single POST operation carries no schemas: the
dangling pointer is never resolved during compilation. -/
def unreachSpec : Spec :=
  ⟨[("/x", ⟨some bareOp, none, none, none, none⟩)],
   [("#/components/schemas/Unused", refMissingSchema)]⟩

/-- A document whose single operation's request schema is the dangling
pointer: compilation must resolve it and aborts. -/
def danglingSpec : Spec :=
  ⟨[("/x", ⟨some ⟨none, none, none, some refMissingSchema, none, none⟩,
      none, none, none, none⟩)], []⟩

/-- A closed document: the request schema points at `A`, and `A` is the
plain string schema in the table. -/
def closedDocSpec : Spec :=
  ⟨[("/y", ⟨some ⟨some "docs.create", none, none, some refASchema, none, none⟩,
      none, none, none, none⟩)],
   [("#/components/schemas/A", strSchema)]⟩

/-! ## Theorems -/

/-! ## Basic facts about `derefSchema` -/

/-- Reduction of monadic bind on a successful `Except` computation. -/
theorem exbind_ok {α β ε : Type} (a : α) (f : α → Except ε β) :
    (Except.ok a : Except ε α) >>= f = f a := rfl

/-- Reduction of monadic bind on a failed `Except` computation. -/
theorem exbind_error {α β ε : Type} (e : ε) (f : α → Except ε β) :
    (Except.error e : Except ε α) >>= f = .error e := rfl

/-- Above the depth bound, dereferencing short-circuits to the empty schema
and does not touch the seen-set. -/
theorem deref_depth_exceeded (spec : Spec) (schema : Option Schema)
    (seen : List String) (depth : Nat) (h : depth > MAX_SCHEMA_DEPTH) :
    derefSchema spec schema seen depth = .ok (Schema.empty, seen) := by
  have h0 : MAX_SCHEMA_DEPTH + 1 - depth = 0 := by
    simp only [MAX_SCHEMA_DEPTH] at h ⊢; omega
  cases schema <;> simp [derefSchema, h0, derefSchemaF]

/-- A reference node whose pointer is already in the seen-set
short-circuits to the empty schema. -/
theorem deref_ref_seen (spec : Spec) (s : Schema) (seen : List String)
    (depth : Nat) (r : String) (href : s.ref? = some r) (hmem : r ∈ seen) :
    derefSchema spec (some s) seen depth = .ok (Schema.empty, seen) := by
  by_cases hd : depth > MAX_SCHEMA_DEPTH
  · exact deref_depth_exceeded spec (some s) seen depth hd
  · obtain ⟨k, hk⟩ : ∃ k, MAX_SCHEMA_DEPTH + 1 - depth = k + 1 := by
      refine ⟨MAX_SCHEMA_DEPTH - depth, ?_⟩
      simp only [MAX_SCHEMA_DEPTH] at hd ⊢; omega
    have hc : seen.contains r = true := by
      simpa [List.contains] using hmem
    simp [derefSchema, hk, derefSchemaF, hd, href, hc]
    exact fun h => absurd hmem h

/-- Dereferencing is the identity on an already resolved node (no `$ref`,
no `allOf`) within the depth bound. -/
theorem deref_resolved_id (spec : Spec) (s : Schema) (seen : List String)
    (depth : Nat) (h1 : s.ref? = none) (h2 : s.allOf? = none)
    (hd : depth ≤ MAX_SCHEMA_DEPTH) :
    derefSchema spec (some s) seen depth = .ok (s, seen) := by
  obtain ⟨k, hk⟩ : ∃ k, MAX_SCHEMA_DEPTH + 1 - depth = k + 1 := by
    refine ⟨MAX_SCHEMA_DEPTH - depth, ?_⟩
    simp only [MAX_SCHEMA_DEPTH] at hd ⊢; omega
  have hd' : ¬ depth > MAX_SCHEMA_DEPTH := by omega
  simp [derefSchema, hk, derefSchemaF, hd', h1, h2]

/-- C4: schema resolution terminates on every input (the resolver is a total
function here, defined by structural recursion mirroring the script's
depth-guarded recursion): resolution at depth exceeding the fixed bound 8
yields the empty/unresolved schema, revisiting a reference already recorded
on the current resolution path short-circuits to the empty schema instead of
recursing, and a schema that references itself directly resolves to the
empty/permissive schema rather than looping or crashing. -/
theorem c4_resolution_termination :
    (∀ (spec : Spec) (schema : Option Schema) (seen : List String) (depth : Nat),
        depth > MAX_SCHEMA_DEPTH →
        derefSchema spec schema seen depth = .ok (Schema.empty, seen)) ∧
    (∀ (spec : Spec) (s : Schema) (seen : List String) (depth : Nat) (r : String),
        s.ref? = some r → r ∈ seen →
        derefSchema spec (some s) seen depth = .ok (Schema.empty, seen)) ∧
    derefSchema selfRefSpec (some refASchema) [] 0 =
      .ok (Schema.empty, ["#/components/schemas/A"]) :=
  ⟨deref_depth_exceeded, deref_ref_seen, rfl⟩

/-- Witness for `c4_resolution_termination` at concrete inputs. -/
theorem c4_witness :
    derefSchema emptySpec none [] 9 = .ok (Schema.empty, []) ∧
    derefSchema objASpec (some refASchema) ["#/components/schemas/A"] 3 =
      .ok (Schema.empty, ["#/components/schemas/A"]) :=
  ⟨c4_resolution_termination.1 emptySpec none [] 9 (by decide),
   c4_resolution_termination.2.1 objASpec refASchema ["#/components/schemas/A"] 3
     "#/components/schemas/A" rfl (by decide)⟩

/-- C9 counterexample: the visited-reference set IS shared across sibling
`allOf` branches (the script mutates one `Set` object threaded through the
branch loop).  With `A ↦ objASchema` (non-cyclic): resolving `$ref A` with
fresh memory yields the full object, but under the memory produced by an
identical sibling branch it degrades to the empty schema; consequently the
two-branch merge records `required = ["a"]` once (the second branch
contributed nothing) instead of twice. -/
theorem c9_counterexample :
    derefSchema objASpec (some refASchema) [] 1 =
      .ok (objASchema, ["#/components/schemas/A"]) ∧
    derefSchema objASpec (some refASchema) ["#/components/schemas/A"] 1 =
      .ok (Schema.empty, ["#/components/schemas/A"]) ∧
    mergeAllOfSchemas objASpec [refASchema, refASchema] [] 0 =
      .ok (Schema.mk none none false false (some "object") (some [("a", strSchema)])
        (some ["a"]) none none none false none none, ["#/components/schemas/A"]) :=
  ⟨rfl, rfl, rfl⟩

/-- C9 amended: the visited set is carried per resolution path but threaded
(shared) across the sibling branches of one `allOf` composite: a reference
resolved by an earlier branch is already in the memory seen by a later
sibling branch, which therefore degrades to the empty schema for that
reference.  In contrast the validator compiler hands every object property a
fresh copy of the (post-dereference) set, so sibling properties have
independent cycle memory: two sibling properties referencing the same
non-cyclic schema both resolve to that schema's full resolved form. -/
theorem c9_amended :
    (∀ (spec : Spec) (b1 b2 : Schema) (res1 : Schema) (s1 seen : List String)
        (depth : Nat) (r : String),
        derefSchema spec (some b1) seen (depth + 1) = .ok (res1, s1) →
        b2.ref? = some r → r ∈ s1 →
        mergeAllOfSchemas spec [b1, b2] seen depth =
          .ok (mergeResolvedList [res1, Schema.empty], s1)) ∧
    schemaToZodExpression strASpec (some twoRefPropSchema) Mode.input 0 [] =
      .ok (ZodExpr.objectStrict [("x", ZodExpr.string), ("y", ZodExpr.string)]) := by
  refine ⟨?_, rfl⟩
  intro spec b1 b2 res1 s1 seen depth r h1 href hmem
  simp [mergeAllOfSchemas, List.foldlM, h1, exbind_ok,
    deref_ref_seen spec b2 s1 (depth + 1) r href hmem]

/-- Witness for `c9_amended` at concrete inputs. -/
theorem c9_witness :
    mergeAllOfSchemas objASpec [refASchema, refASchema] [] 0 =
      .ok (mergeResolvedList [objASchema, Schema.empty], ["#/components/schemas/A"]) :=
  c9_amended.1 objASpec refASchema refASchema objASchema
    ["#/components/schemas/A"] [] 0 "#/components/schemas/A" rfl rfl (by decide)

/-- On success, the name and the annotations of a generated tool are
computed from the operation identifier (with path fallback) alone. -/
theorem generateTool_fields (spec : Spec) (pathKey : String) (op : Operation)
    (t : ToolDefinition) (h : generateTool spec pathKey op = .ok t) :
    t.name = deriveToolName pathKey op ∧
    t.annotations =
      ⟨patternTest READ_ONLY_PATTERN (op.operationId.getD (stripLeadingSlash pathKey)),
       patternTest DESTRUCTIVE_PATTERN (op.operationId.getD (stripLeadingSlash pathKey)),
       patternTest READ_ONLY_PATTERN (op.operationId.getD (stripLeadingSlash pathKey)),
       true⟩ := by
  simp only [generateTool] at h
  cases hi : buildInputSchemaExpression spec op <;> rw [hi] at h
  case error => exact absurd h (by simp [exbind_error])
  case ok a =>
    rw [exbind_ok] at h
    cases ho : buildOutputSchemaExpression spec op <;> rw [ho] at h
    case error => exact absurd h (by simp [exbind_error])
    case ok b =>
      rw [exbind_ok] at h
      cases hp : hasPagination spec op <;> rw [hp] at h
      case error => exact absurd h (by simp [exbind_error])
      case ok c =>
        rw [exbind_ok] at h
        injection h with h2
        subst h2
        exact ⟨rfl, rfl⟩

/-- C7 fails as stated: at identifier `a1B` the generator and the claim's
pipeline disagree. -/
theorem c7_counterexample :
    (generateTool emptySpec "/a1B" ⟨some "a1B", none, none, none, none, none⟩).map
      (fun t => t.name) = .ok "outline_a1_b" ∧
    claimToolName "a1B" = "outline_a1b" ∧
    "outline_a1_b" ≠ "outline_a1b" :=
  ⟨rfl, rfl, by decide⟩

/-- C7 amended: the canonical tool name is derived deterministically from
the operation identifier (falling back to the path with its leading slash
stripped) by, in order: replacing `.` with `_`, inserting an underscore at
every boundary between a lowercase letter OR DIGIT and an uppercase letter,
replacing every character outside `[a-zA-Z0-9_]` with `_`, collapsing
repeated underscores, lowercasing, and prepending the fixed namespace token
(`toSnakeCase` is that pipeline definitionally); `documents.info` derives
`outline_documents_info`, and path `/auth.info` without an identifier
derives the same way from the path. -/
theorem c7_amended :
    (∀ (spec : Spec) (pathKey : String) (op : Operation) (t : ToolDefinition),
        generateTool spec pathKey op = .ok t →
        t.name = "outline_" ++ toSnakeCase (op.operationId.getD (stripLeadingSlash pathKey))) ∧
    toSnakeCase "documents.info" = "documents_info" ∧
    (generateTool emptySpec "/documents.info"
        ⟨some "documents.info", none, none, none, none, none⟩).map (fun t => t.name) =
      .ok "outline_documents_info" ∧
    (generateTool emptySpec "/auth.info" ⟨none, none, none, none, none, none⟩).map
      (fun t => t.name) = .ok "outline_auth_info" :=
  ⟨fun spec pk op t h => (generateTool_fields spec pk op t h).1, rfl, rfl, rfl⟩

/-- Witness for `c7_amended` at a concrete operation. -/
theorem c7_witness :
    "outline_foo_bar" =
      "outline_" ++ toSnakeCase ((some "fooBar").getD (stripLeadingSlash "/x")) :=
  c7_amended.1 emptySpec "/x" ⟨some "fooBar", none, none, none, none, none⟩
    ⟨"outline_foo_bar", "outline_foo_bar", "", "x", ZodExpr.objectStrict [], none,
      ⟨false, false, false, true⟩⟩ rfl

/-- C8: annotations match the identifier case-insensitively against the two
fixed token sets; a read match sets `readOnly` and `idempotent`, a
destructive match sets `destructive`, `openWorld` is always true, and both
flags can hold at once with no precedence (`documents.deleteInfo` matches
both sets).  `collections.list` yields {readOnly, idempotent, openWorld},
`documents.delete` yields {destructive, openWorld}. -/
theorem c8_annotation_derivation :
    (∀ (spec : Spec) (pathKey : String) (op : Operation) (t : ToolDefinition),
        generateTool spec pathKey op = .ok t →
        t.annotations =
          ⟨patternTest READ_ONLY_PATTERN (op.operationId.getD (stripLeadingSlash pathKey)),
           patternTest DESTRUCTIVE_PATTERN (op.operationId.getD (stripLeadingSlash pathKey)),
           patternTest READ_ONLY_PATTERN (op.operationId.getD (stripLeadingSlash pathKey)),
           true⟩) ∧
    (generateTool emptySpec "/collections.list"
        ⟨some "collections.list", none, none, none, none, none⟩).map
      (fun t => t.annotations) = .ok ⟨true, false, true, true⟩ ∧
    (generateTool emptySpec "/documents.delete"
        ⟨some "documents.delete", none, none, none, none, none⟩).map
      (fun t => t.annotations) = .ok ⟨false, true, false, true⟩ ∧
    (generateTool emptySpec "/documents.deleteInfo"
        ⟨some "documents.deleteInfo", none, none, none, none, none⟩).map
      (fun t => t.annotations) = .ok ⟨true, true, true, true⟩ :=
  ⟨fun spec pk op t h => (generateTool_fields spec pk op t h).2, rfl, rfl, rfl⟩

/-- Witness for `c8_annotation_derivation` at a concrete operation. -/
theorem c8_witness :
    (⟨true, false, true, true⟩ : ToolAnnotations) =
      ⟨patternTest READ_ONLY_PATTERN ((some "collections.list").getD (stripLeadingSlash "/y")),
       patternTest DESTRUCTIVE_PATTERN ((some "collections.list").getD (stripLeadingSlash "/y")),
       patternTest READ_ONLY_PATTERN ((some "collections.list").getD (stripLeadingSlash "/y")),
       true⟩ :=
  c8_annotation_derivation.1 emptySpec "/y"
    ⟨some "collections.list", none, none, none, none, none⟩
    ⟨"outline_collections_list", "outline_collections_list", "", "y",
      ZodExpr.objectStrict [], none, ⟨true, false, true, true⟩⟩ rfl

/-- Mapping `generateTool` over a method list produces exactly the derived
names, in order. -/
theorem mapM_generateTool_names (spec : Spec) (pk : String) :
    ∀ (ops : List Operation) (ts : List ToolDefinition),
      ops.mapM (generateTool spec pk) = .ok ts →
      ts.map (fun t => t.name) = ops.map (fun op => deriveToolName pk op) := by
  intro ops
  induction ops with
  | nil => intro ts h; simp only [List.mapM_nil] at h; injection h with h2; subst h2; rfl
  | cons o os ih =>
    intro ts h
    rw [List.mapM_cons] at h
    cases hg : generateTool spec pk o <;> rw [hg] at h
    case error => exact absurd h (by simp [exbind_error])
    case ok t0 =>
      rw [exbind_ok] at h
      cases hm : os.mapM (generateTool spec pk) <;> rw [hm] at h
      case error => exact absurd h (by simp [exbind_error])
      case ok ts0 =>
        rw [exbind_ok] at h
        injection h with h2
        subst h2
        simp only [List.map_cons]
        rw [(generateTool_fields spec pk o t0 hg).1, ih ts0 hm]

/-- The fold of `generateTools`, generalized over the accumulator. -/
theorem generateTools_names_aux (spec : Spec) :
    ∀ (paths : List (String × PathItem)) (acc ts : List ToolDefinition),
      paths.foldlM
        (fun acc pkpi => do
          let us ← (opsOfPathItem pkpi.2).mapM (generateTool spec pkpi.1)
          pure (acc ++ us)) acc = .ok ts →
      ts.map (fun t => t.name) =
        acc.map (fun t => t.name) ++
          (paths.flatMap (fun pkpi =>
            (opsOfPathItem pkpi.2).map (fun op => (pkpi.1, op)))).map
            (fun po => deriveToolName po.1 po.2) := by
  intro paths
  induction paths with
  | nil =>
    intro acc ts h
    simp only [List.foldlM_nil] at h
    injection h with h2; subst h2; simp
  | cons p rest ih =>
    intro acc ts h
    rw [List.foldlM_cons] at h
    cases hm : (opsOfPathItem p.2).mapM (generateTool spec p.1) <;> rw [hm] at h
    case error => exact absurd h (by simp [exbind_error])
    case ok us =>
      rw [exbind_ok] at h
      have := ih (acc ++ us) ts h
      rw [this, List.map_append, mapM_generateTool_names spec p.1 _ us hm]
      simp [List.map_map, Function.comp]

/-- C10 amended: the name of every generated tool is a deterministic
function of the operation's identifier and path alone — the generated name
sequence equals the derivation map over the operation sequence — and hence
the names are pairwise distinct exactly when those derived names are
pairwise distinct; the generator itself performs no deduplication, so a
name collision between operations is passed through. -/
theorem c10_amended :
    ∀ (spec : Spec) (ts : List ToolDefinition),
      generateTools spec = .ok ts →
      ts.map (fun t => t.name) =
        (specOps spec).map (fun po => deriveToolName po.1 po.2) ∧
      ((ts.map (fun t => t.name)).Nodup ↔
        ((specOps spec).map (fun po => deriveToolName po.1 po.2)).Nodup) := by
  intro spec ts h
  have hx := generateTools_names_aux spec spec.paths [] ts h
  simp only [List.map_nil, List.nil_append] at hx
  have hs : specOps spec =
      spec.paths.flatMap (fun pkpi => (opsOfPathItem pkpi.2).map (fun op => (pkpi.1, op))) := rfl
  rw [hs]
  exact ⟨hx, by rw [hx]⟩

/-- C10 counterexample: both operations of `/x` derive the same name, so
the generated names are not pairwise distinct. -/
theorem c10_counterexample :
    (generateTools dupSpec).map (fun ts => ts.map (fun t => t.name)) =
      .ok ["outline_x", "outline_x"] ∧
    ¬ (["outline_x", "outline_x"] : List String).Nodup :=
  ⟨rfl, by decide⟩

/-- Witness for `c10_amended` at a concrete document. -/
theorem c10_witness :
    (["outline_x", "outline_x"] : List String) =
      (specOps dupSpec).map (fun po => deriveToolName po.1 po.2) :=
  (c10_amended dupSpec
    [⟨"outline_x", "outline_x", "", "x", ZodExpr.objectStrict [], none,
       ⟨false, false, false, true⟩⟩,
     ⟨"outline_x", "outline_x", "", "x", ZodExpr.objectStrict [], none,
       ⟨false, false, false, true⟩⟩] rfl).1

/-- `setKey` on a map without the key appends the binding. -/
theorem setKey_absent (l : List (String × Schema)) (k : String) (v : Schema)
    (h : ∀ p ∈ l, p.1 ≠ k) : setKey l k v = l ++ [(k, v)] := by
  have ha : l.any (fun p => p.1 == k) = false := by
    simp only [List.any_eq_false]
    intro p hp
    simpa using h p hp
  simp [setKey, ha]

/-- `Object.assign` with sources whose keys are fresh and distinct appends. -/
theorem objAssign_append :
    ∀ (src acc : List (String × Schema)),
      (∀ q ∈ src, ∀ p ∈ acc, p.1 ≠ q.1) → (src.map Prod.fst).Nodup →
      objAssign acc src = acc ++ src := by
  intro src
  induction src with
  | nil => intro acc _ _; simp [objAssign]
  | cons q rest ih =>
    intro acc hdisj hnodup
    have hnodup' : (q.1 :: rest.map Prod.fst).Nodup := by
      rw [List.map_cons] at hnodup; exact hnodup
    have hn := List.nodup_cons.mp hnodup'
    have hstep : setKey acc q.1 q.2 = acc ++ [q] :=
      setKey_absent acc q.1 q.2 (fun p hp => hdisj q (List.mem_cons_self q rest) p hp)
    have h1 : objAssign acc (q :: rest) = objAssign (acc ++ [q]) rest := by
      simp [objAssign, hstep]
    have hdisj' : ∀ q' ∈ rest, ∀ p ∈ acc ++ [q], p.1 ≠ q'.1 := by
      intro q' hq' p hp
      rcases List.mem_append.mp hp with hpa | hpq
      · exact hdisj q' (List.mem_cons_of_mem q hq') p hpa
      · have hpq' : p = q := by simpa using hpq
        subst hpq'
        intro hc
        exact hn.1 (by rw [hc]; exact List.mem_map_of_mem Prod.fst hq')
    rw [h1, ih (acc ++ [q]) hdisj' hn.2]
    simp

/-- `Object.assign` from an empty target is the identity on a map with
distinct keys. -/
theorem objAssign_nil (p : List (String × Schema))
    (h : (p.map Prod.fst).Nodup) : objAssign [] p = p := by
  simpa using objAssign_append p [] (by simp) h

/-- Replacing the key's bindings makes lookup hit the new value. -/
theorem lookup_map_hit (k : String) (v : Schema) :
    ∀ l : List (String × Schema), l.any (fun p => p.1 == k) = true →
      lookupS k (l.map (fun p => if p.1 == k then (k, v) else p)) = some v := by
  intro l
  induction l with
  | nil => intro h; simp at h
  | cons p0 rest ih =>
    intro h
    by_cases hp : p0.1 = k
    · simp [lookupS, hp]
    · have hb : (p0.1 == k) = false := beq_eq_false_iff_ne.mpr hp
      have h' : rest.any (fun p => p.1 == k) = true := by
        simpa [List.any_cons, hb] using h
      simpa [lookupS, hb] using ih h'

/-- Appending a binding for a key absent from the front makes lookup hit it. -/
theorem lookup_cat_hit (k : String) (v : Schema) :
    ∀ l : List (String × Schema), l.any (fun p => p.1 == k) = false →
      lookupS k (l ++ [(k, v)]) = some v := by
  intro l
  induction l with
  | nil => simp [lookupS]
  | cons p0 rest ih =>
    intro h
    have hb : (p0.1 == k) = false := by
      simpa using List.any_eq_false.mp h p0 (List.mem_cons_self p0 rest)
    have h' : rest.any (fun p => p.1 == k) = false := by
      simpa [List.any_cons, hb] using h
    simpa [lookupS, hb] using ih h'

/-- Replacing bindings of key `k` does not affect lookups of other keys. -/
theorem lookup_map_ne (k k' : String) (v : Schema) (hne : k' ≠ k) :
    ∀ l : List (String × Schema),
      lookupS k' (l.map (fun p => if p.1 == k then (k, v) else p)) = lookupS k' l := by
  intro l
  induction l with
  | nil => simp [lookupS]
  | cons p0 rest ih =>
    by_cases hp : p0.1 = k
    · have hkk' : (k == k') = false := beq_eq_false_iff_ne.mpr (fun h => hne h.symm)
      have hp0k' : (p0.1 == k') = false := by rw [hp]; exact hkk'
      have hkk : k ≠ k' := fun h => hne h.symm
      simp only [lookupS, List.map_cons, hp, if_pos rfl, beq_self_eq_true] at ih ⊢
      simp only [hkk', Bool.false_eq_true, if_false] at ih ⊢
      simpa [hkk] using ih
    · have hb : (p0.1 == k) = false := beq_eq_false_iff_ne.mpr hp
      by_cases hq : p0.1 = k'
      · simp [lookupS, hb, hq, hne]
      · have hq' : (p0.1 == k') = false := beq_eq_false_iff_ne.mpr hq
        simp only [lookupS, List.map_cons, hb, Bool.false_eq_true, if_false, hq'] at ih ⊢
        simpa [hb, hq'] using ih

/-- Appending a binding for key `k` does not affect lookups of other keys. -/
theorem lookup_cat_ne (k k' : String) (v : Schema) (hne : k' ≠ k) :
    ∀ l : List (String × Schema), lookupS k' (l ++ [(k, v)]) = lookupS k' l := by
  intro l
  induction l with
  | nil => simp [lookupS, beq_eq_false_iff_ne.mpr (fun h => hne h.symm)]
  | cons p0 rest ih =>
    by_cases hq : p0.1 = k'
    · simp [lookupS, hq]
    · have hq' : (p0.1 == k') = false := beq_eq_false_iff_ne.mpr hq
      simp [lookupS, hq', ih]

/-- `setKey` installs the binding for its key. -/
theorem lookup_setKey_self (l : List (String × Schema)) (k : String) (v : Schema) :
    lookupS k (setKey l k v) = some v := by
  by_cases h : l.any (fun p => p.1 == k)
  · simpa [setKey, h] using lookup_map_hit k v l h
  · have h' : l.any (fun p => p.1 == k) = false := Bool.eq_false_iff.mpr h
    simpa [setKey, h'] using lookup_cat_hit k v l h'

/-- `setKey` leaves every other key's lookup unchanged. -/
theorem lookup_setKey_ne (l : List (String × Schema)) (k k' : String) (v : Schema)
    (hne : k' ≠ k) : lookupS k' (setKey l k v) = lookupS k' l := by
  by_cases h : l.any (fun p => p.1 == k)
  · simpa [setKey, h] using lookup_map_ne k k' v hne l
  · have h' : l.any (fun p => p.1 == k) = false := Bool.eq_false_iff.mpr h
    simpa [setKey, h'] using lookup_cat_ne k k' v hne l

/-- Assigning sources that do not bind `k` does not affect `k`'s lookup. -/
theorem lookup_objAssign_absent (k : String) :
    ∀ (src t : List (String × Schema)), (∀ q ∈ src, q.1 ≠ k) →
      lookupS k (objAssign t src) = lookupS k t := by
  intro src
  induction src with
  | nil => intro t _; simp [objAssign]
  | cons q rest ih =>
    intro t h
    have h1 : objAssign t (q :: rest) = objAssign (setKey t q.1 q.2) rest := by
      simp [objAssign]
    rw [h1, ih _ (fun q' hq' => h q' (List.mem_cons_of_mem q hq'))]
    exact lookup_setKey_ne t q.1 k q.2 (h q (List.mem_cons_self q rest)).symm

/-- Last branch wins: a key bound by the (distinct-keyed) source looks up to
the source's binding, whatever the target held. -/
theorem lookup_objAssign_right (k : String) :
    ∀ (src t : List (String × Schema)), (src.map Prod.fst).Nodup →
      k ∈ src.map Prod.fst →
      lookupS k (objAssign t src) = lookupS k src := by
  intro src
  induction src with
  | nil => intro t _ h; simp at h
  | cons q rest ih =>
    intro t hnodup hmem
    have hnodup' : (q.1 :: rest.map Prod.fst).Nodup := by
      rw [List.map_cons] at hnodup; exact hnodup
    have hn := List.nodup_cons.mp hnodup'
    have h1 : objAssign t (q :: rest) = objAssign (setKey t q.1 q.2) rest := by
      simp [objAssign]
    by_cases hk : k = q.1
    · have hfresh : ∀ q' ∈ rest, q'.1 ≠ k := by
        intro q' hq' hc
        exact hn.1 (by rw [← hk, ← hc]; exact List.mem_map_of_mem Prod.fst hq')
      rw [h1, lookup_objAssign_absent k rest _ hfresh, hk, lookup_setKey_self]
      simp [lookupS]
    · have hmem' : k ∈ rest.map Prod.fst := by
        rcases (by simpa using hmem : k = q.1 ∨ k ∈ rest.map Prod.fst) with h | h
        · exact absurd h hk
        · exact h
      have hrest : lookupS k (q :: rest) = lookupS k rest := by
        simp [lookupS, beq_eq_false_iff_ne.mpr (fun hc => hk hc.symm)]
      rw [h1, ih _ hn.2 hmem', hrest]

/-- C3: composite (`allOf`) resolution resolves every branch recursively at
depth+1 and merges the results into a schema that is always typed object;
the property maps are unioned with last-branch-wins on a name collision (the
earlier binding is discarded), the required-name lists are concatenated
without deduplication, and composing branches with disjoint property sets
yields a property count equal to the sum of the branches' counts.  The final
conjunct resolves an actual `$ref` branch during merging. -/
theorem c3_allof_merge :
    (∀ rs : List Schema, (mergeResolvedList rs).type? = some "object") ∧
    (∀ (spec : Spec) (s1 s2 : Schema) (seen : List String),
        s1.ref? = none → s1.allOf? = none → s2.ref? = none → s2.allOf? = none →
        mergeAllOfSchemas spec [s1, s2] seen 0 =
          .ok (mergeResolvedList [s1, s2], seen)) ∧
    (∀ (s1 s2 : Schema) (p1 p2 : List (String × Schema)),
        s1.props? = some p1 → s2.props? = some p2 → (p1.map Prod.fst).Nodup →
        (mergeResolvedList [s1, s2]).props? = some (objAssign p1 p2)) ∧
    (∀ (s1 s2 : Schema) (r1 r2 : List String),
        s1.required? = some r1 → s2.required? = some r2 →
        (mergeResolvedList [s1, s2]).required? =
          if (r1 ++ r2).isEmpty then none else some (r1 ++ r2)) ∧
    (∀ (p1 p2 : List (String × Schema)) (k : String),
        (p2.map Prod.fst).Nodup → k ∈ p2.map Prod.fst →
        lookupS k (objAssign p1 p2) = lookupS k p2) ∧
    (∀ (p1 p2 : List (String × Schema)),
        ((p1 ++ p2).map Prod.fst).Nodup →
        (objAssign p1 p2).length = p1.length + p2.length) ∧
    mergeAllOfSchemas objASpec [refASchema] [] 0 =
      .ok (mergeResolvedList [objASchema], ["#/components/schemas/A"]) := by
  refine ⟨fun rs => rfl, ?_, ?_, ?_, ?_, ?_, rfl⟩
  · intro spec s1 s2 seen h1 h2 h3 h4
    simp [mergeAllOfSchemas, List.foldlM, exbind_ok,
      deref_resolved_id spec s1 seen 1 h1 h2 (by decide),
      deref_resolved_id spec s2 seen 1 h3 h4 (by decide)]
  · intro s1 s2 p1 p2 hp1 hp2 hnodup
    simp [mergeResolvedList, hp1, hp2, objAssign_nil p1 hnodup]
    rfl
  · intro s1 s2 r1 r2 hr1 hr2
    simp [mergeResolvedList, hr1, hr2]
    rfl
  · intro p1 p2 k hnodup hmem
    exact lookup_objAssign_right k p2 p1 hnodup hmem
  · intro p1 p2 h
    rw [List.map_append] at h
    have hd := List.disjoint_of_nodup_append h
    have h2 : (p2.map Prod.fst).Nodup := h.of_append_right
    have he : objAssign p1 p2 = p1 ++ p2 := by
      refine objAssign_append p2 p1 ?_ h2
      intro q hq p hp hc
      exact hd (List.mem_map_of_mem Prod.fst hp) (by rw [hc]; exact List.mem_map_of_mem Prod.fst hq)
    rw [he, List.length_append]

/-- Witness for `c3_allof_merge` at concrete two-branch inputs. -/
theorem c3_witness :
    mergeAllOfSchemas emptySpec [objASchema, objBSchema] [] 0 =
      .ok (mergeResolvedList [objASchema, objBSchema], []) ∧
    (mergeResolvedList [objASchema, objBSchema]).props? =
      some (objAssign [("a", strSchema)] [("b", strSchema)]) ∧
    (mergeResolvedList [objASchema, objBSchema]).required? =
      (if ((["a"] ++ ["b"] : List String)).isEmpty then none
       else some (["a"] ++ ["b"])) ∧
    lookupS "b" (objAssign [("a", strSchema)] [("b", strSchema)]) =
      lookupS "b" [("b", strSchema)] ∧
    (objAssign [("a", strSchema)] [("b", strSchema)]).length =
      [("a", strSchema)].length + [("b", strSchema)].length :=
  ⟨c3_allof_merge.2.1 emptySpec objASchema objBSchema [] rfl rfl rfl rfl,
   c3_allof_merge.2.2.1 objASchema objBSchema [("a", strSchema)] [("b", strSchema)]
     rfl rfl (by decide),
   c3_allof_merge.2.2.2.1 objASchema objBSchema ["a"] ["b"] rfl rfl,
   c3_allof_merge.2.2.2.2.1 [("a", strSchema)] [("b", strSchema)] "b" (by decide)
     (by decide),
   c3_allof_merge.2.2.2.2.2.1 [("a", strSchema)] [("b", strSchema)] (by decide)⟩

/-! ## String enumerations (claim C6) -/

/-- Compilation at depth 0 runs with a full fuel budget of `8 + 1`. -/
theorem schemaToZod_zero (spec : Spec) (schema : Option Schema) (mode : Mode)
    (seen : List String) :
    schemaToZodExpression spec schema mode 0 seen =
      schemaToZodF spec (8 + 1) schema mode 0 seen := rfl

/-- All-string enumerations keep their length under the string filter. -/
theorem filterMap_str_length_eq :
    ∀ es : List JLit,
      (es.all fun l => match l with | .str _ => true | _ => false) = true →
      (es.filterMap (fun l => match l with | .str s' => some s' | _ => none)).length =
        es.length := by
  intro es
  induction es with
  | nil => intro _; rfl
  | cons l rest ih =>
    intro h
    cases l with
    | str s' => simpa [List.filterMap_cons] using ih (by simpa using h)
    | num n => simp at h
    | bool b => simp at h
    | null => simp at h

/-- Mixed-type enumerations shrink strictly under the string filter. -/
theorem filterMap_str_length_ne :
    ∀ es : List JLit,
      (es.all fun l => match l with | .str _ => true | _ => false) = false →
      (es.filterMap (fun l => match l with | .str s' => some s' | _ => none)).length ≠
        es.length := by
  intro es
  induction es with
  | nil => intro h; simp at h
  | cons l rest ih =>
    intro h
    cases l with
    | str s' =>
      have h' : (rest.all fun l => match l with | .str _ => true | _ => false) = false := by
        simpa using h
      simpa [List.filterMap_cons] using ih h'
    | num n =>
      have := List.length_filterMap_le
        (fun l => match l with | .str s' => some s' | _ => none) rest
      simp only [List.filterMap_cons, List.length_cons]
      omega
    | bool b =>
      have := List.length_filterMap_le
        (fun l => match l with | .str s' => some s' | _ => none) rest
      simp only [List.filterMap_cons, List.length_cons]
      omega
    | null =>
      have := List.length_filterMap_le
        (fun l => match l with | .str s' => some s' | _ => none) rest
      simp only [List.filterMap_cons, List.length_cons]
      omega

/-- C6 counterexample: under output mode a mixed-type enumeration on a
string-typed node compiles to the open string validator, not to
permissive-any: `z.string()` is a different validator that rejects the
non-string enumeration member `5`, which permissive-any accepts. -/
theorem c6_counterexample :
    schemaToZodExpression emptySpec (some enumMixedSchema) Mode.output 0 [] =
      .ok ZodExpr.string ∧
    ZodExpr.string ≠ ZodExpr.any ∧
    accepts ZodExpr.string (JVal.num 5) = false ∧
    accepts ZodExpr.any (JVal.num 5) = true := by
  refine ⟨rfl, fun h => ZodExpr.noConfusion h, ?_, ?_⟩ <;> simp [accepts]

/-- C6 amended: for a string-typed node with a non-empty enumeration, under
input mode an all-string enumeration compiles to the closed allowed-value
set and a mixed-type enumeration to the union of the literal values (a
single literal when only one member); under output mode ANY enumeration
(all-string or mixed-type) degrades to the open string validator, which
accepts every string — the output validator never rejects a string for
falling outside the enumerated set (though it does reject the non-string
members a mixed enumeration lists). -/
theorem c6_amended :
    (∀ (spec : Spec) (s : Schema) (es : List JLit),
        s.ref? = none → s.allOf? = none → s.oneOfB = false → s.anyOfB = false →
        s.type? = some "string" → s.props? = none → s.enum? = some es → es ≠ [] →
        s.nullableB = false → s.descr? = none → s.example? = none →
        ((es.all fun l => match l with | .str _ => true | _ => false) = true →
          schemaToZodExpression spec (some s) Mode.input 0 [] =
            .ok (ZodExpr.enum (es.filterMap
              (fun l => match l with | .str s' => some s' | _ => none)))) ∧
        ((es.all fun l => match l with | .str _ => true | _ => false) = false →
          schemaToZodExpression spec (some s) Mode.input 0 [] =
            .ok (if (es.map ZodExpr.lit).length == 1 then
                   (es.map ZodExpr.lit).headD ZodExpr.any
                 else ZodExpr.union (es.map ZodExpr.lit))) ∧
        schemaToZodExpression spec (some s) Mode.output 0 [] = .ok ZodExpr.string) ∧
    (∀ s' : String, accepts ZodExpr.string (JVal.str s') = true) := by
  refine ⟨?_, fun s' => by simp [accepts]⟩
  intro spec s es h1 h2 h3 h4 h5 h6 h7 h8 h9 h10 h11
  have hie : es.isEmpty = false := by
    cases es with
    | nil => exact absurd rfl h8
    | cons a l => rfl
  have hderef := deref_resolved_id spec s [] 0 h1 h2 (by decide)
  refine ⟨?_, ?_, ?_⟩
  · intro hall
    have hlen : ((es.filterMap
        (fun l => match l with | .str s' => some s' | _ => none)).length == es.length) =
        true := by
      simpa using filterMap_str_length_eq es hall
    rw [schemaToZod_zero, schemaToZodF.eq_2, hderef]
    simp only [exbind_ok]
    simp [h3, h4, h5, h6, h7, h9, h10, h11, hie, hlen, finishExpression]
  · intro hall
    have hlen : ((es.filterMap
        (fun l => match l with | .str s' => some s' | _ => none)).length == es.length) =
        false := by
      simpa using filterMap_str_length_ne es hall
    rw [schemaToZod_zero, schemaToZodF.eq_2, hderef]
    simp only [exbind_ok]
    simp [h3, h4, h5, h6, h7, h9, h10, h11, hie, hlen, finishExpression]
  · rw [schemaToZod_zero, schemaToZodF.eq_2, hderef]
    simp only [exbind_ok]
    simp [h3, h4, h5, h6, h7, h9, h10, h11, hie, finishExpression]

/-- Witness for `c6_amended` at the two concrete enumerations. -/
theorem c6_witness :
    schemaToZodExpression emptySpec (some enumStrSchema) Mode.input 0 [] =
      .ok (ZodExpr.enum (([JLit.str "a", JLit.str "b"]).filterMap
        (fun l => match l with | .str s' => some s' | _ => none))) ∧
    schemaToZodExpression emptySpec (some enumMixedSchema) Mode.input 0 [] =
      .ok (if (([JLit.str "a", JLit.num 5]).map ZodExpr.lit).length == 1 then
             (([JLit.str "a", JLit.num 5]).map ZodExpr.lit).headD ZodExpr.any
           else ZodExpr.union (([JLit.str "a", JLit.num 5]).map ZodExpr.lit)) ∧
    schemaToZodExpression emptySpec (some enumStrSchema) Mode.output 0 [] =
      .ok ZodExpr.string :=
  ⟨(c6_amended.1 emptySpec enumStrSchema [JLit.str "a", JLit.str "b"]
      rfl rfl rfl rfl rfl rfl rfl (by decide) rfl rfl rfl).1 (by decide),
   (c6_amended.1 emptySpec enumMixedSchema [JLit.str "a", JLit.num 5]
      rfl rfl rfl rfl rfl rfl rfl (by decide) rfl rfl rfl).2.1 (by decide),
   (c6_amended.1 emptySpec enumStrSchema [JLit.str "a", JLit.str "b"]
      rfl rfl rfl rfl rfl rfl rfl (by decide) rfl rfl rfl).2.2⟩

/-! ## Object validators (claims C1 and C2) -/

/-- Inversion of a successful monadic bind over `Except`. -/
theorem exbind_ok_inv {α β ε : Type} {m : Except ε α} {k : α → Except ε β} {b : β}
    (h : (m >>= k) = .ok b) : ∃ a, m = .ok a ∧ k a = .ok b := by
  cases m with
  | error e => rw [exbind_error] at h; exact absurd h (by simp)
  | ok a => exact ⟨a, rfl, by rwa [exbind_ok] at h⟩

/-- A traversal whose step preserves the key yields the same key list. -/
theorem mapM_ok_fst {F : String × Schema → Except String (String × ZodExpr)}
    (hF : ∀ p r, F p = .ok r → r.1 = p.1) :
    ∀ (props : List (String × Schema)) (entries : List (String × ZodExpr)),
      props.mapM F = .ok entries →
      entries.map Prod.fst = props.map Prod.fst := by
  intro props
  induction props with
  | nil =>
    intro entries h
    simp only [List.mapM_nil] at h
    injection h with h2; subst h2; rfl
  | cons p rest ih =>
    intro entries h
    rw [List.mapM_cons] at h
    obtain ⟨r, hr, h2⟩ := exbind_ok_inv h
    obtain ⟨rs, hrs, h3⟩ := exbind_ok_inv h2
    have h4 : (r :: rs : List (String × ZodExpr)) = entries := by
      have h5 : (Except.ok (r :: rs) : Except String (List (String × ZodExpr))) =
          Except.ok entries := h3
      injection h5
    subst h4
    simp only [List.map_cons]
    rw [hF p r hr, ih rs hrs]

/-- Every element of a successful traversal's output comes from an input. -/
theorem mapM_ok_of_mem {α β : Type} {F : α → Except String β} :
    ∀ (l : List α) (res : List β), l.mapM F = .ok res →
      ∀ a ∈ l, ∃ b ∈ res, F a = .ok b := by
  intro l
  induction l with
  | nil => intro res _ a ha; simp at ha
  | cons hd tl ih =>
    intro res h a ha
    rw [List.mapM_cons] at h
    obtain ⟨b0, hb0, h2⟩ := exbind_ok_inv h
    obtain ⟨bs, hbs, h3⟩ := exbind_ok_inv h2
    have h4 : (b0 :: bs : List β) = res := by
      have h5 : (Except.ok (b0 :: bs) : Except String (List β)) = Except.ok res := h3
      injection h5
    subst h4
    rcases List.mem_cons.mp ha with h | h
    · exact ⟨b0, List.mem_cons_self b0 bs, h ▸ hb0⟩
    · obtain ⟨b, hb, hFb⟩ := ih bs hbs a h
      exact ⟨b, List.mem_cons_of_mem b0 hb, hFb⟩

/-- A key bound by none of the entries looks up to nothing. -/
theorem lookupJ_absent (k : String) :
    ∀ l : List (String × JVal), (∀ q ∈ l, q.1 ≠ k) → lookupJ k l = none := by
  intro l
  induction l with
  | nil => intro _; rfl
  | cons q rest ih =>
    intro h
    have hb : (q.1 == k) = false :=
      beq_eq_false_iff_ne.mpr (h q (List.mem_cons_self q rest))
    simp [lookupJ, hb, ih (fun q' hq' => h q' (List.mem_cons_of_mem q hq'))]

/-- Appending pairs that do not bind `k` does not change `k`'s lookup. -/
theorem lookupJ_append (k : String) :
    ∀ (kvs extra : List (String × JVal)), (∀ q ∈ extra, q.1 ≠ k) →
      lookupJ k (kvs ++ extra) = lookupJ k kvs := by
  intro kvs extra hextra
  induction kvs with
  | nil => simpa using lookupJ_absent k extra hextra
  | cons q rest ih =>
    by_cases hq : q.1 = k
    · simp [lookupJ, hq]
    · simp [lookupJ, beq_eq_false_iff_ne.mpr hq, ih]

/-- Declared-property checking ignores appended pairs whose keys are not
declared. -/
theorem acceptsProps_append_extra :
    ∀ (entries : List (String × ZodExpr)) (kvs extra : List (String × JVal)),
      (∀ q ∈ extra, q.1 ∉ entries.map Prod.fst) →
      acceptsProps entries (kvs ++ extra) = acceptsProps entries kvs := by
  intro entries
  induction entries with
  | nil => intro kvs extra _; simp [acceptsProps]
  | cons en rest ih =>
    intro kvs extra hextra
    have h1 : lookupJ en.1 (kvs ++ extra) = lookupJ en.1 kvs := by
      refine lookupJ_append en.1 kvs extra ?_
      intro q hq hc
      exact hextra q hq (by rw [hc]; simp)
    have h2 : acceptsProps rest (kvs ++ extra) = acceptsProps rest kvs := by
      refine ih kvs extra ?_
      intro q hq hc
      exact hextra q hq
        (by simp only [List.map_cons]; exact List.mem_cons_of_mem en.1 hc)
    obtain ⟨k, e⟩ := en
    simp only [acceptsProps] at h1 h2 ⊢
    rw [h1, h2]

/-- In a passing catchall check, every undeclared key's value passed the
secondary validator. -/
theorem acceptsExtra_true_of (ce : ZodExpr) (declared : List String) :
    ∀ (kvs : List (String × JVal)), acceptsExtra ce declared kvs = true →
      ∀ (k0 : String) (v0 : JVal), (k0, v0) ∈ kvs →
        declared.contains k0 = false → accepts ce v0 = true := by
  intro kvs
  induction kvs with
  | nil => intro _ k0 v0 h; simp at h
  | cons kv rest ih =>
    intro h k0 v0 hmem hk0
    obtain ⟨k, v⟩ := kv
    simp only [acceptsExtra, Bool.and_eq_true, Bool.or_eq_true] at h
    rcases List.mem_cons.mp hmem with heq | hmem'
    · injection heq with e1 e2
      subst e1; subst e2
      rcases h.1 with hc | hacc
      · rw [hk0] at hc; exact absurd hc (by simp)
      · exact hacc
    · exact ih h.2 k0 v0 hmem' hk0

/-- `.describe` does not affect validation. -/
theorem accepts_describe (e : ZodExpr) (d : String) (v : JVal) :
    accepts (ZodExpr.describe e d) v = accepts e v := by
  simp [accepts]

/-- `.nullable` does not affect validation of object values. -/
theorem accepts_nullable_obj (e : ZodExpr) (kvs : List (String × JVal)) :
    accepts (ZodExpr.nullable e) (JVal.obj kvs) = accepts e (JVal.obj kvs) := by
  simp [accepts]

/-- The nullable/describe wrapping the compiler may add around an object
validator does not affect validation of object values. -/
theorem accepts_obj_wrap (b : ZodExpr) (nb : Bool) (parts : List String)
    (kvs : List (String × JVal)) :
    accepts (if parts.isEmpty then (if nb then ZodExpr.nullable b else b)
             else ZodExpr.describe (if nb then ZodExpr.nullable b else b)
               (String.intercalate " " parts)) (JVal.obj kvs) =
    accepts b (JVal.obj kvs) := by
  by_cases hp : parts.isEmpty <;> by_cases hn : nb <;>
    simp [hp, hn, accepts_describe, accepts_nullable_obj]

/-- Every element of a successful traversal's output is the image of an
input element. -/
theorem mapM_ok_mem_rev {α β : Type} {F : α → Except String β} :
    ∀ (l : List α) (res : List β), l.mapM F = .ok res →
      ∀ b ∈ res, ∃ a ∈ l, F a = .ok b := by
  intro l
  induction l with
  | nil =>
    intro res h b hb
    simp only [List.mapM_nil] at h
    have h5 : (Except.ok ([] : List β) : Except String (List β)) = Except.ok res := h
    injection h5 with h6
    subst h6
    simp at hb
  | cons hd tl ih =>
    intro res h b hb
    rw [List.mapM_cons] at h
    obtain ⟨b0, hb0, h2⟩ := exbind_ok_inv h
    obtain ⟨bs, hbs, h3⟩ := exbind_ok_inv h2
    have h4 : (b0 :: bs : List β) = res := by
      have h5 : (Except.ok (b0 :: bs) : Except String (List β)) = Except.ok res := h3
      injection h5
    subst h4
    rcases List.mem_cons.mp hb with h | h
    · exact ⟨hd, List.mem_cons_self hd tl, h ▸ hb0⟩
    · obtain ⟨a, ha, hFa⟩ := ih bs hbs b h
      exact ⟨a, List.mem_cons_of_mem hd ha, hFa⟩

/-- Shadowing the object value with `(k, null)` preserves acceptance when
every declared entry for `k` is nullable. -/
theorem acceptsProps_cons_null (k : String) :
    ∀ (entries : List (String × ZodExpr)) (kvs : List (String × JVal)),
      (∀ en ∈ entries, en.1 = k → ∃ inner, en.2 = ZodExpr.nullable inner) →
      acceptsProps entries kvs = true →
      acceptsProps entries ((k, JVal.null) :: kvs) = true := by
  intro entries
  induction entries with
  | nil => intro kvs _ _; simp [acceptsProps]
  | cons en rest ih =>
    intro kvs hwrap hacc
    obtain ⟨k', pe⟩ := en
    simp only [acceptsProps, Bool.and_eq_true] at hacc ⊢
    refine ⟨?_, ih kvs (fun en hen h => hwrap en (List.mem_cons_of_mem _ hen) h) hacc.2⟩
    by_cases hk : k = k'
    · have hkb : (k == k') = true := beq_iff_eq.mpr hk
      obtain ⟨inner, hinner⟩ :=
        hwrap (k', pe) (List.mem_cons_self _ rest) hk.symm
      simp only at hinner
      simp [lookupJ, hkb, hinner, accepts]
    · have hkb : (k == k') = false := beq_eq_false_iff_ne.mpr hk
      simpa [lookupJ, hkb] using hacc.1

/-- Variant of `accepts_obj_wrap` with generic decidable conditions, for
matching whatever shape the simplifier leaves the wrapping in. -/
theorem accepts_obj_wrap2 (b : ZodExpr) (c c2 : Prop) [Decidable c] [Decidable c2]
    (d : String) (kvs : List (String × JVal)) :
    accepts (if c then (if c2 then ZodExpr.nullable b else b)
             else ZodExpr.describe (if c2 then ZodExpr.nullable b else b) d)
      (JVal.obj kvs) = accepts b (JVal.obj kvs) := by
  by_cases hc : c <;> by_cases hn : c2 <;>
    simp [hc, hn, accepts_describe, accepts_nullable_obj]

/-- The final wrapping step does not affect validation of object values. -/
theorem accepts_finish_obj (s : Schema) (b : ZodExpr) (kvs : List (String × JVal)) :
    accepts (finishExpression s b) (JVal.obj kvs) = accepts b (JVal.obj kvs) := by
  unfold finishExpression
  by_cases hn : s.nullableB <;> simp only [hn, if_true, if_false] <;> split <;>
    simp [accepts_describe, accepts_nullable_obj]

/-- C1: an input-mode object validator rejects any argument object that
carries an undeclared property, unless the schema explicitly allows
additional properties: with `additionalProperties: true` undeclared
properties are unrestricted (they do not influence acceptance), and with a
secondary schema every undeclared property of an accepted object was
validated against the compiled secondary validator.  The worked example
rejects `{"id":"x","extra":1}`, rejects `{}`, and accepts `{"id":"x"}`. -/
theorem c1_input_object_strictness :
    (∀ (spec : Spec) (s : Schema) (e : ZodExpr),
        s.ref? = none → s.allOf? = none → s.oneOfB = false → s.anyOfB = false →
        (s.type? = some "object" ∨ s.props?.isSome = true) →
        schemaToZodExpression spec (some s) Mode.input 0 [] = .ok e →
        ((s.addProps? = none ∨ s.addProps? = some (Sum.inl false)) →
          ∀ (kvs : List (String × JVal)) (k0 : String) (v0 : JVal),
            (k0, v0) ∈ kvs → k0 ∉ (s.props?.getD []).map Prod.fst →
            accepts e (JVal.obj kvs) = false) ∧
        (s.addProps? = some (Sum.inl true) →
          ∀ (kvs extra : List (String × JVal)),
            (∀ q ∈ extra, q.1 ∉ (s.props?.getD []).map Prod.fst) →
            accepts e (JVal.obj (kvs ++ extra)) = accepts e (JVal.obj kvs)) ∧
        (∀ ap : Schema, s.addProps? = some (Sum.inr ap) →
          ∃ ce, schemaToZodExpression spec (some ap) Mode.input 1 [] = .ok ce ∧
            ∀ (kvs : List (String × JVal)) (k0 : String) (v0 : JVal),
              accepts e (JVal.obj kvs) = true → (k0, v0) ∈ kvs →
              k0 ∉ (s.props?.getD []).map Prod.fst →
              accepts ce v0 = true)) ∧
    (schemaToZodExpression emptySpec (some exSchema) Mode.input 0 [] =
      .ok (ZodExpr.objectStrict [("id", ZodExpr.string)]) ∧
     accepts (ZodExpr.objectStrict [("id", ZodExpr.string)])
       (JVal.obj [("id", JVal.str "x"), ("extra", JVal.num 1)]) = false ∧
     accepts (ZodExpr.objectStrict [("id", ZodExpr.string)]) (JVal.obj []) = false ∧
     accepts (ZodExpr.objectStrict [("id", ZodExpr.string)])
       (JVal.obj [("id", JVal.str "x")]) = true) := by
  constructor
  · intro spec s e h1 h2 h3 h4 hshape hcomp
    have hderef := deref_resolved_id spec s [] 0 h1 h2 (by decide)
    rw [schemaToZod_zero, schemaToZodF.eq_2, hderef] at hcomp
    simp only [exbind_ok] at hcomp
    rw [if_neg (by decide : ¬ ((0 : Nat) > MAX_SCHEMA_DEPTH)), h3, h4,
        if_neg (by simp : ¬ ((false || false) = true))] at hcomp
    have hsh : ((s.type? == some "object" || s.props?.isSome) = true) := by
      rcases hshape with h | h
      · simp [h]
      · simp [h]
    rw [if_pos hsh, show (Mode.input == Mode.output) = false from rfl] at hcomp
    obtain ⟨entries, hm, hcont⟩ := exbind_ok_inv hcomp
    have hfst : entries.map Prod.fst = (s.props?.getD []).map Prod.fst := by
      refine mapM_ok_fst ?_ _ _ hm
      intro p r hr
      obtain ⟨pe, _, h6⟩ := exbind_ok_inv hr
      have h7 : (Except.ok (p.1,
          propertyEntry (s.required?.getD []) false p.1 pe) :
          Except String (String × ZodExpr)) = Except.ok r := h6
      injection h7 with h8
      rw [← h8]
    refine ⟨?_, ?_, ?_⟩
    · intro hadd kvs k0 v0 hkv hk0
      have he : e = finishExpression s (ZodExpr.objectStrict entries) := by
        rcases hadd with hadd | hadd <;> rw [hadd] at hcont <;>
        · simp only [exbind_ok] at hcont
          have h5 : (Except.ok (finishExpression s (ZodExpr.objectStrict entries)) :
              Except String ZodExpr) = Except.ok e := by simpa using hcont
          injection h5 with h6
          exact h6.symm
      rw [he, accepts_finish_obj]
      have hany : entries.any (fun p => p.1 == k0) = false := by
        rw [List.any_eq_false]
        intro p hp hbeq
        have hmem : p.1 ∈ (s.props?.getD []).map Prod.fst := by
          rw [← hfst]; exact List.mem_map_of_mem Prod.fst hp
        rw [eq_of_beq hbeq] at hmem
        exact hk0 hmem
      have hall : kvs.all (fun kv => entries.any (fun p => p.1 == kv.1)) = false :=
        List.all_eq_false.mpr ⟨(k0, v0), hkv, by simp [hany]⟩
      simp [accepts, hall]
    · intro hadd kvs extra hextra
      have he : e = finishExpression s (ZodExpr.objectPassthrough entries) := by
        rw [hadd] at hcont
        simp only [exbind_ok] at hcont
        have h5 : (Except.ok (finishExpression s (ZodExpr.objectPassthrough entries)) :
            Except String ZodExpr) = Except.ok e := by simpa using hcont
        injection h5 with h6
        exact h6.symm
      rw [he, accepts_finish_obj, accepts_finish_obj]
      have hextra' : ∀ q ∈ extra, q.1 ∉ entries.map Prod.fst := by
        intro q hq
        rw [hfst]
        exact hextra q hq
      simp only [accepts]
      exact acceptsProps_append_extra entries kvs extra hextra'
    · intro ap hadd
      rw [hadd] at hcont
      simp only at hcont
      obtain ⟨ce, hce, hcont2⟩ := exbind_ok_inv hcont
      have he : e = finishExpression s (ZodExpr.objectCatchall entries ce) := by
        try simp only [exbind_ok] at hcont2
        have h5 : (Except.ok (finishExpression s (ZodExpr.objectCatchall entries ce)) :
            Except String ZodExpr) = Except.ok e := by simpa using hcont2
        injection h5 with h6
        exact h6.symm
      refine ⟨ce, hce, ?_⟩
      intro kvs k0 v0 hacc hkv hk0
      rw [he, accepts_finish_obj] at hacc
      simp only [accepts, Bool.and_eq_true] at hacc
      have hk0' : ((entries.map Prod.fst).contains k0) = false := by
        rw [hfst]
        refine Bool.eq_false_iff.mpr ?_
        intro hcon
        exact hk0 (by simpa [List.contains] using hcon)
      exact acceptsExtra_true_of ce (entries.map Prod.fst) kvs hacc.2 k0 v0 hkv hk0'
  · refine ⟨rfl, ?_, ?_, ?_⟩ <;> simp [accepts, acceptsProps, lookupJ, acceptsUndef]

/-- Witness for `c1_input_object_strictness` at the worked example. -/
theorem c1_witness :
    accepts (ZodExpr.objectStrict [("id", ZodExpr.string)])
      (JVal.obj [("id", JVal.str "x"), ("extra", JVal.num 1)]) = false :=
  (c1_input_object_strictness.1 emptySpec exSchema
      (ZodExpr.objectStrict [("id", ZodExpr.string)])
      rfl rfl rfl rfl (Or.inl rfl) rfl).1 (Or.inl rfl)
    [("id", JVal.str "x"), ("extra", JVal.num 1)] "extra" (JVal.num 1)
    (by simp) (by decide)

/-- C2: an output-mode object validator tolerates unknown additional
properties — acceptance of an object value is unchanged by appending fields
with undeclared keys — and every declared property outside the required set
additionally accepts an explicit null; the worked example accepts
`{"id":"x","extra":true}`. -/
theorem c2_output_object_tolerance :
    (∀ (spec : Spec) (s : Schema) (e : ZodExpr),
        s.ref? = none → s.allOf? = none → s.oneOfB = false → s.anyOfB = false →
        (s.type? = some "object" ∨ s.props?.isSome = true) →
        schemaToZodExpression spec (some s) Mode.output 0 [] = .ok e →
        (∀ (kvs extra : List (String × JVal)),
            (∀ q ∈ extra, q.1 ∉ (s.props?.getD []).map Prod.fst) →
            accepts e (JVal.obj (kvs ++ extra)) = accepts e (JVal.obj kvs)) ∧
        (∀ (kvs : List (String × JVal)) (k : String),
            accepts e (JVal.obj kvs) = true →
            k ∈ (s.props?.getD []).map Prod.fst →
            ((s.required?.getD []).contains k) = false →
            accepts e (JVal.obj ((k, JVal.null) :: kvs)) = true)) ∧
    (schemaToZodExpression emptySpec (some exSchema) Mode.output 0 [] =
      .ok (ZodExpr.objectPassthrough [("id", ZodExpr.string)]) ∧
     accepts (ZodExpr.objectPassthrough [("id", ZodExpr.string)])
       (JVal.obj [("id", JVal.str "x"), ("extra", JVal.bool true)]) = true) := by
  constructor
  · intro spec s e h1 h2 h3 h4 hshape hcomp
    have hderef := deref_resolved_id spec s [] 0 h1 h2 (by decide)
    rw [schemaToZod_zero, schemaToZodF.eq_2, hderef] at hcomp
    simp only [exbind_ok] at hcomp
    rw [if_neg (by decide : ¬ ((0 : Nat) > MAX_SCHEMA_DEPTH)), h3, h4,
        if_neg (by simp : ¬ ((false || false) = true))] at hcomp
    have hsh : ((s.type? == some "object" || s.props?.isSome) = true) := by
      rcases hshape with h | h
      · simp [h]
      · simp [h]
    rw [if_pos hsh, show (Mode.output == Mode.output) = true from rfl] at hcomp
    obtain ⟨entries, hm, hcont⟩ := exbind_ok_inv hcomp
    rw [if_pos rfl] at hcont
    try simp only [exbind_ok] at hcont
    have he : e = finishExpression s (ZodExpr.objectPassthrough entries) := by
      have h5 : (Except.ok (finishExpression s (ZodExpr.objectPassthrough entries)) :
          Except String ZodExpr) = Except.ok e := by simpa using hcont
      injection h5 with h6
      exact h6.symm
    have hfst : entries.map Prod.fst = (s.props?.getD []).map Prod.fst := by
      refine mapM_ok_fst ?_ _ _ hm
      intro p r hr
      obtain ⟨pe, _, h6⟩ := exbind_ok_inv hr
      have h7 : (Except.ok (p.1,
          propertyEntry (s.required?.getD []) true p.1 pe) :
          Except String (String × ZodExpr)) = Except.ok r := h6
      injection h7 with h8
      rw [← h8]
    constructor
    · intro kvs extra hextra
      rw [he, accepts_finish_obj, accepts_finish_obj]
      have hextra' : ∀ q ∈ extra, q.1 ∉ entries.map Prod.fst := by
        intro q hq
        rw [hfst]
        exact hextra q hq
      simp only [accepts]
      exact acceptsProps_append_extra entries kvs extra hextra'
    · intro kvs k hacc hmem hreq
      rw [he, accepts_finish_obj] at hacc ⊢
      simp only [accepts] at hacc ⊢
      refine acceptsProps_cons_null k entries kvs ?_ hacc
      intro en hen hk
      obtain ⟨p, hp, hFp⟩ := mapM_ok_mem_rev _ _ hm en hen
      obtain ⟨pe, _, h6⟩ := exbind_ok_inv hFp
      have h7 : (Except.ok (p.1,
          propertyEntry (s.required?.getD []) true p.1 pe) :
          Except String (String × ZodExpr)) = Except.ok en := h6
      injection h7 with h8
      have hkey : p.1 = k := by rw [← h8] at hk; simpa using hk
      refine ⟨ZodExpr.optional pe, ?_⟩
      rw [← h8]
      simp only [propertyEntry, hkey, hreq]
      simp
  · refine ⟨rfl, ?_⟩
    simp [accepts, acceptsProps, lookupJ, acceptsUndef]

/-- Witness for `c2_output_object_tolerance`: the optional property of
`optSchema` accepts an explicit null. -/
theorem c2_witness :
    accepts (ZodExpr.objectPassthrough
        [("note", ZodExpr.nullable (ZodExpr.optional ZodExpr.string))])
      (JVal.obj [("note", JVal.null)]) = true :=
  (c2_output_object_tolerance.1 emptySpec optSchema
      (ZodExpr.objectPassthrough
        [("note", ZodExpr.nullable (ZodExpr.optional ZodExpr.string))])
      rfl rfl rfl rfl (Or.inl rfl) rfl).2 [] "note"
    (by simp [accepts, acceptsProps, lookupJ, acceptsUndef]) (by decide) (by decide)

/-- A node's own pointer is among its collected pointers. -/
theorem refsList_ref (s : Schema) (r : String) (h : s.ref? = some r) :
    r ∈ s.refsList := by
  cases s with
  | mk rf ao o a t ps rq ap it e n d ex =>
    simp only [Schema.ref?] at h
    subst h
    simp [Schema.refsList]

/-- Collected pointers of a branch list contain each branch's pointers. -/
theorem refsListL_mem :
    ∀ (bs : List Schema) (b : Schema), b ∈ bs →
      ∀ x ∈ b.refsList, x ∈ refsListL bs := by
  intro bs
  induction bs with
  | nil => intro b hb; simp at hb
  | cons hd tl ih =>
    intro b hb x hx
    rcases List.mem_cons.mp hb with h | h
    · subst h; simp [refsListL, hx]
    · simp [refsListL]
      exact Or.inr (ih b h x hx)

/-- Collected pointers of a property list contain each property's pointers. -/
theorem refsListP_mem :
    ∀ (l : List (String × Schema)) (p : String × Schema), p ∈ l →
      ∀ x ∈ p.2.refsList, x ∈ refsListP l := by
  intro l
  induction l with
  | nil => intro p hp; simp at hp
  | cons hd tl ih =>
    intro p hp x hx
    rcases List.mem_cons.mp hp with h | h
    · subst h; simp [refsListP, hx]
    · simp [refsListP]
      exact Or.inr (ih p h x hx)

/-- Conversely, a collected property pointer comes from some property. -/
theorem refsListP_mem_rev :
    ∀ (l : List (String × Schema)) (x : String), x ∈ refsListP l →
      ∃ p ∈ l, x ∈ p.2.refsList := by
  intro l
  induction l with
  | nil => intro x hx; simp [refsListP] at hx
  | cons hd tl ih =>
    intro x hx
    simp only [refsListP, List.mem_append] at hx
    rcases hx with h | h
    · exact ⟨hd, List.mem_cons_self hd tl, h⟩
    · obtain ⟨p, hp, hx'⟩ := ih x h
      exact ⟨p, List.mem_cons_of_mem hd hp, hx'⟩

/-- `allOf` branch pointers are collected. -/
theorem refsList_allOf (s : Schema) (bs : List Schema) (h : s.allOf? = some bs)
    (b : Schema) (hb : b ∈ bs) : ∀ x ∈ b.refsList, x ∈ s.refsList := by
  intro x hx
  cases s with
  | mk rf ao o a t ps rq ap it e n d ex =>
    simp only [Schema.allOf?] at h
    subst h
    simp [Schema.refsList, refsListAO]
    exact Or.inr (Or.inl (refsListL_mem bs b hb x hx))

/-- Property pointers are collected. -/
theorem refsList_props (s : Schema) (l : List (String × Schema))
    (h : s.props? = some l) (p : String × Schema) (hp : p ∈ l) :
    ∀ x ∈ p.2.refsList, x ∈ s.refsList := by
  intro x hx
  cases s with
  | mk rf ao o a t ps rq ap it e n d ex =>
    simp only [Schema.props?] at h
    subst h
    simp [Schema.refsList, refsListPO]
    exact Or.inr (Or.inr (Or.inl (refsListP_mem l p hp x hx)))

/-- Schema-valued `additionalProperties` pointers are collected. -/
theorem refsList_addProps (s ap : Schema) (h : s.addProps? = some (.inr ap)) :
    ∀ x ∈ ap.refsList, x ∈ s.refsList := by
  intro x hx
  cases s with
  | mk rf ao o a t ps rq apx it e n d ex =>
    simp only [Schema.addProps?] at h
    subst h
    simp [Schema.refsList, refsListAP]
    exact Or.inr (Or.inr (Or.inr (Or.inl hx)))

/-- `items` pointers are collected. -/
theorem refsList_items (s it : Schema) (h : s.items? = some it) :
    ∀ x ∈ it.refsList, x ∈ s.refsList := by
  intro x hx
  cases s with
  | mk rf ao o a t ps rq ap itx e n d ex =>
    simp only [Schema.items?] at h
    subst h
    simp [Schema.refsList, refsListIT]
    exact Or.inr (Or.inr (Or.inr (Or.inr hx)))

/-- The empty schema is closed. -/
theorem schemaOk_empty (spec : Spec) : SchemaOk spec Schema.empty := by
  intro r hr
  simp [Schema.empty, Schema.refsList, refsListAO, refsListPO, refsListAP,
    refsListIT] at hr

/-- `setKey` adds no bindings beyond the target's and the new one. -/
theorem setKey_mem (l : List (String × Schema)) (k : String) (v : Schema)
    (p : String × Schema) (h : p ∈ setKey l k v) : p ∈ l ∨ p = (k, v) := by
  unfold setKey at h
  by_cases ha : l.any (fun q => q.1 == k)
  · rw [if_pos ha] at h
    obtain ⟨q, hq, hfq⟩ := List.mem_map.mp h
    by_cases hqk : q.1 = k
    · right; rw [← hfq]; simp [hqk]
    · left
      have : (q.1 == k) = false := beq_eq_false_iff_ne.mpr hqk
      rw [← hfq]
      simpa [this] using hq
  · rw [if_neg ha] at h
    rcases List.mem_append.mp h with h' | h'
    · exact Or.inl h'
    · right; simpa using h'

/-- `Object.assign` adds no bindings beyond the two maps'. -/
theorem objAssign_mem :
    ∀ (src t : List (String × Schema)) (p : String × Schema),
      p ∈ objAssign t src → p ∈ t ∨ p ∈ src := by
  intro src
  induction src with
  | nil => intro t p h; exact Or.inl (by simpa [objAssign] using h)
  | cons q rest ih =>
    intro t p h
    have h1 : objAssign t (q :: rest) = objAssign (setKey t q.1 q.2) rest := by
      simp [objAssign]
    rw [h1] at h
    rcases ih (setKey t q.1 q.2) p h with h' | h'
    · rcases setKey_mem t q.1 q.2 p h' with h'' | h''
      · exact Or.inl h''
      · right
        rw [h'']
        simp
    · exact Or.inr (List.mem_cons_of_mem q h')

/-- A binding of the merged property map comes from some branch. -/
theorem mergeProps_mem :
    ∀ (rs : List Schema) (acc : List (String × Schema)) (p : String × Schema),
      p ∈ rs.foldl (fun acc r => match r.props? with
        | some ps => objAssign acc ps
        | none => acc) acc →
      p ∈ acc ∨ ∃ s' ∈ rs, ∃ ps', s'.props? = some ps' ∧ p ∈ ps' := by
  intro rs
  induction rs with
  | nil => intro acc p h; exact Or.inl (by simpa using h)
  | cons s' rest ih =>
    intro acc p h
    rw [List.foldl_cons] at h
    rcases ih _ p h with h' | h'
    · cases hps : s'.props? with
      | none => rw [hps] at h'; exact Or.inl h'
      | some ps =>
        rw [hps] at h'
        rcases objAssign_mem ps acc p h' with h'' | h''
        · exact Or.inl h''
        · exact Or.inr ⟨s', List.mem_cons_self s' rest, ps, hps, h''⟩
    · obtain ⟨s'', hs'', ps', hps', hp⟩ := h'
      exact Or.inr ⟨s'', List.mem_cons_of_mem s' hs'', ps', hps', hp⟩

/-- Merging closed schemas yields a closed schema. -/
theorem schemaOk_merge (spec : Spec) (rs : List Schema)
    (h : ∀ t ∈ rs, SchemaOk spec t) : SchemaOk spec (mergeResolvedList rs) := by
  intro x hx
  simp only [mergeResolvedList, Schema.refsList] at hx
  simp [refsListAO, refsListPO, refsListAP, refsListIT] at hx
  obtain ⟨p, hp, hx'⟩ := refsListP_mem_rev _ x hx
  rcases mergeProps_mem rs [] p hp with h' | h'
  · simp at h'
  · obtain ⟨s', hs', ps', hps', hpp⟩ := h'
    exact h s' hs' x (refsList_props s' ps' hps' p hpp x hx')

/-- Reduction of monadic bind on a pure `Except` value. -/
theorem expure_bind {α β : Type} (a : α) (f : α → Except String β) :
    ((pure a : Except String α) >>= f) = f a := rfl

/-- A successful table lookup returns a schema stored in the table. -/
theorem lookupRef_mem (spec : Spec) (r : String) (t : Schema)
    (h : lookupRef spec r = some t) : ∃ kv ∈ spec.refTable, kv.2 = t := by
  unfold lookupRef at h
  cases hf : spec.refTable.find? (fun kv => kv.1 == r) with
  | none => rw [hf] at h; simp at h
  | some kv =>
    rw [hf] at h
    simp at h
    exact ⟨kv, List.mem_of_find?_eq_some hf, h⟩

/-- Under a closed table, lookup targets are closed. -/
theorem lookup_schemaOk (spec : Spec) (ht : TableOk spec) (r : String) (t : Schema)
    (h : lookupRef spec r = some t) : SchemaOk spec t := by
  obtain ⟨kv, hkv, he⟩ := lookupRef_mem spec r t h
  exact he ▸ ht kv hkv

/-- Totality of dereferencing on closed input: with a closed table and a
closed schema, `derefSchemaF` never throws, and its result is closed. -/
theorem derefF_total :
    ∀ (fuel : Nat) (spec : Spec) (schema : Option Schema) (seen : List String)
      (depth : Nat), TableOk spec →
      (∀ s, schema = some s → SchemaOk spec s) →
      ∃ t seen', derefSchemaF spec fuel schema seen depth = .ok (t, seen') ∧
        SchemaOk spec t := by
  intro fuel
  induction fuel with
  | zero =>
    intro spec schema seen depth _ _
    cases schema with
    | none => exact ⟨Schema.empty, seen, rfl, schemaOk_empty spec⟩
    | some s => exact ⟨Schema.empty, seen, rfl, schemaOk_empty spec⟩
  | succ fuel ih =>
    intro spec schema seen depth htab hok
    cases schema with
    | none => exact ⟨Schema.empty, seen, rfl, schemaOk_empty spec⟩
    | some s =>
      have hs : SchemaOk spec s := hok s rfl
      by_cases hd : depth > MAX_SCHEMA_DEPTH
      · refine ⟨Schema.empty, seen, ?_, schemaOk_empty spec⟩
        simp [derefSchemaF, hd]
      · cases href : s.ref? with
        | some r =>
          by_cases hseen : seen.contains r
          · refine ⟨Schema.empty, seen, ?_, schemaOk_empty spec⟩
            simp [derefSchemaF, hd, href, hseen]
            intro hcon
            exact absurd (by simpa [List.contains] using hseen) hcon
          · have hr := hs r (refsList_ref s r href)
            obtain ⟨t, ht⟩ := Option.isSome_iff_exists.mp hr.2
            have hres : resolveRef spec r = .ok t := by
              simp [resolveRef, hr.1, ht]
            have hts : SchemaOk spec t := lookup_schemaOk spec htab r t ht
            obtain ⟨t', seen'', heq, hok'⟩ :=
              ih spec (some t) (seen ++ [r]) (depth + 1) htab
                (fun s' hs' => by injection hs' with h'; exact h' ▸ hts)
            refine ⟨t', seen'', ?_, hok'⟩
            simp [derefSchemaF, hd, href, hseen, hres, exbind_ok, heq]
            intro hcon
            exact absurd hcon (by simpa [List.contains] using hseen)
        | none =>
          cases hao : s.allOf? with
          | some bs =>
            have hbs : ∀ b ∈ bs, SchemaOk spec b := by
              intro b hb x hx
              exact hs x (refsList_allOf s bs hao b hb x hx)
            have hfold : ∀ (bs' : List Schema), (∀ b ∈ bs', SchemaOk spec b) →
                ∀ (acc : List Schema × List String),
                (∀ t ∈ acc.1, SchemaOk spec t) →
                ∃ st : List Schema × List String,
                  bs'.foldlM (fun acc b => do
                    let rs ← derefSchemaF spec fuel (some b) acc.2 (depth + 1)
                    pure (acc.1 ++ [rs.1], rs.2)) acc = .ok st ∧
                  ∀ t ∈ st.1, SchemaOk spec t := by
              intro bs'
              induction bs' with
              | nil => intro _ acc hacc; exact ⟨acc, rfl, hacc⟩
              | cons b rest ihb =>
                intro hb acc hacc
                obtain ⟨t, seen'', heq, hok'⟩ :=
                  ih spec (some b) acc.2 (depth + 1) htab
                    (fun s' hs' => by
                      injection hs' with h'
                      exact h' ▸ hb b (List.mem_cons_self b rest))
                obtain ⟨st, hst, hstok⟩ := ihb
                  (fun b' hb' => hb b' (List.mem_cons_of_mem b hb'))
                  (acc.1 ++ [t], seen'')
                  (by
                    intro t' ht'
                    rcases List.mem_append.mp ht' with h' | h'
                    · exact hacc t' h'
                    · have h'' : t' = t := by simpa using h'
                      exact h'' ▸ hok')
                refine ⟨st, ?_, hstok⟩
                rw [List.foldlM_cons]
                simp only [heq, exbind_ok, expure_bind]
                exact hst
            obtain ⟨st, hst, hstok⟩ := hfold bs hbs ([], seen) (by intro t ht; simp at ht)
            refine ⟨mergeResolvedList st.1, st.2, ?_,
              schemaOk_merge spec st.1 hstok⟩
            have hst' := hst
            simp only [bind_pure_comp] at hst'
            simp [derefSchemaF, hd, href, hao, exbind_ok, hst, hst']
          | none =>
            exact ⟨s, seen, by simp [derefSchemaF, hd, href, hao], hs⟩

/-- Totality of `derefSchema` on closed input. -/
theorem deref_total (spec : Spec) (schema : Option Schema) (seen : List String)
    (depth : Nat) (htab : TableOk spec)
    (hok : ∀ s, schema = some s → SchemaOk spec s) :
    ∃ t seen', derefSchema spec schema seen depth = .ok (t, seen') ∧
      SchemaOk spec t :=
  derefF_total (MAX_SCHEMA_DEPTH + 1 - depth) spec schema seen depth htab hok

/-- Totality of the validator compiler on closed input: with a closed table
and a closed schema, `schemaToZodF` never throws. -/
theorem zodF_total :
    ∀ (fuel : Nat) (spec : Spec) (schema : Option Schema) (mode : Mode)
      (depth : Nat) (seen : List String), TableOk spec →
      (∀ s, schema = some s → SchemaOk spec s) →
      ∃ E, schemaToZodF spec fuel schema mode depth seen = .ok E := by
  intro fuel
  induction fuel with
  | zero => intro spec schema mode depth seen _ _; exact ⟨.any, rfl⟩
  | succ fuel ih =>
    intro spec schema mode depth seen htab hok
    obtain ⟨resolved, seen', hderef, hres⟩ :=
      deref_total spec schema seen depth htab hok
    rw [schemaToZodF.eq_2, hderef]
    simp only [exbind_ok]
    by_cases hd : depth > MAX_SCHEMA_DEPTH
    · rw [if_pos hd]; exact ⟨.any, rfl⟩
    · rw [if_neg hd]
      by_cases hoa : (resolved.oneOfB || resolved.anyOfB) = true
      · rw [if_pos hoa]; exact ⟨.any, rfl⟩
      · rw [if_neg hoa]
        have hprops : ∀ p ∈ resolved.props?.getD [], SchemaOk spec p.2 := by
          cases hp : resolved.props? with
          | none => intro p hpp; simp at hpp
          | some l =>
            intro p hpp x hx
            exact hres x (refsList_props resolved l hp p (by simpa using hpp) x hx)
        by_cases h1 : (resolved.type? == some "object" || resolved.props?.isSome) = true
        · rw [if_pos h1]
          have hmapM : ∀ (l : List (String × Schema)), (∀ p ∈ l, SchemaOk spec p.2) →
              ∃ es, l.mapM (fun p => do
                let pe ← schemaToZodF spec fuel (some p.2) mode (depth + 1) seen'
                pure (p.1, propertyEntry (resolved.required?.getD [])
                  (mode == Mode.output) p.1 pe)) = .ok es := by
            intro l
            induction l with
            | nil => intro _; exact ⟨[], by simp [List.mapM_nil]; rfl⟩
            | cons p rest ihl =>
              intro hl
              obtain ⟨pe, hpe⟩ := ih spec (some p.2) mode (depth + 1) seen' htab
                (fun s' hs' => by
                  injection hs' with h'
                  exact h' ▸ hl p (List.mem_cons_self p rest))
              obtain ⟨es, hes⟩ := ihl (fun p' hp' => hl p' (List.mem_cons_of_mem p hp'))
              refine ⟨(p.1, propertyEntry (resolved.required?.getD [])
                (mode == Mode.output) p.1 pe) :: es, ?_⟩
              rw [List.mapM_cons, hpe, exbind_ok, expure_bind, hes, exbind_ok]
              rfl
          obtain ⟨es, hes⟩ := hmapM (resolved.props?.getD []) hprops
          rw [hes, exbind_ok]
          by_cases hio : (mode == Mode.output) = true
          · rw [if_pos hio]; exact ⟨_, rfl⟩
          · rw [if_neg hio]
            cases hap : resolved.addProps? with
            | none => exact ⟨_, rfl⟩
            | some v =>
              cases v with
              | inl b =>
                cases b with
                | true => exact ⟨_, rfl⟩
                | false => exact ⟨_, rfl⟩
              | inr ap =>
                have haps : SchemaOk spec ap := by
                  intro x hx
                  exact hres x (refsList_addProps resolved ap hap x hx)
                obtain ⟨ce, hce⟩ := ih spec (some ap) mode (depth + 1) seen' htab
                  (fun s' hs' => by injection hs' with h'; exact h' ▸ haps)
                simp only [hce, exbind_ok]
                exact ⟨_, rfl⟩
        · rw [if_neg h1]
          by_cases h2 : (resolved.type? == some "array") = true
          · rw [if_pos h2]
            cases hit : resolved.items? with
            | none => exact ⟨_, rfl⟩
            | some itemSchema =>
              have hits : SchemaOk spec itemSchema := by
                intro x hx
                exact hres x (refsList_items resolved itemSchema hit x hx)
              obtain ⟨ie, hie⟩ := ih spec (some itemSchema) mode (depth + 1) seen' htab
                (fun s' hs' => by injection hs' with h'; exact h' ▸ hits)
              simp only [hie, exbind_ok]
              exact ⟨_, rfl⟩
          · rw [if_neg h2]
            repeat' split
            all_goals exact ⟨_, rfl⟩

/-- A closed document has a closed reference table. -/
theorem specClosed_tableOk (spec : Spec) (h : SpecClosed spec) : TableOk spec := by
  intro kv hkv x hx
  refine h x ?_
  simp only [Spec.allRefsList, List.mem_append]
  exact Or.inl (List.mem_flatMap.mpr ⟨kv, hkv, hx⟩)

/-- A closed document has closed operation schemas. -/
theorem specClosed_opOk (spec : Spec) (h : SpecClosed spec)
    (pkpi : String × PathItem) (hp : pkpi ∈ spec.paths) (op : Operation)
    (hop : op ∈ opsOfPathItem pkpi.2) : OpOk spec op := by
  have hbase : ∀ x ∈ op.refsList, RefOk spec x := by
    intro x hx
    refine h x ?_
    simp only [Spec.allRefsList, List.mem_append]
    exact Or.inr (List.mem_flatMap.mpr ⟨pkpi, hp, List.mem_flatMap.mpr ⟨op, hop, hx⟩⟩)
  refine ⟨?_, ?_, ?_⟩ <;> intro s hs x hx <;> refine hbase x ?_ <;>
    simp [Operation.refsList, hs, hx]

/-- Totality of `buildInputSchemaExpression` on closed input. -/
theorem buildInput_total (spec : Spec) (op : Operation) (htab : TableOk spec)
    (hop : ∀ s, op.requestSchema = some s → SchemaOk spec s) :
    ∃ E, buildInputSchemaExpression spec op = .ok E := by
  unfold buildInputSchemaExpression
  cases hrs : op.requestSchema with
  | none => exact ⟨_, rfl⟩
  | some requestSchema =>
    obtain ⟨resolved, seen', hderef, hres⟩ :=
      deref_total spec (some requestSchema) [] 0 htab
        (fun s' hs' => by injection hs' with h'; exact h' ▸ hop _ hrs)
    simp only [hderef, exbind_ok]
    by_cases hsh : (resolved.type? == some "object" || resolved.props?.isSome) = true
    · rw [if_pos hsh]
      unfold schemaToZodExpression
      exact zodF_total _ spec (some resolved) Mode.input 0 [] htab
        (fun s' hs' => by injection hs' with h'; exact h' ▸ hres)
    · rw [if_neg hsh]
      obtain ⟨E, hE⟩ := zodF_total (MAX_SCHEMA_DEPTH + 1 - 0) spec (some resolved)
        Mode.input 0 [] htab (fun s' hs' => by injection hs' with h'; exact h' ▸ hres)
      have hE' : schemaToZodExpression spec (some resolved) Mode.input 0 [] = .ok E := hE
      simp only [hE', exbind_ok]
      exact ⟨_, rfl⟩

/-- Totality of `buildOutputSchemaExpression` on closed input. -/
theorem buildOutput_total (spec : Spec) (op : Operation) (htab : TableOk spec)
    (hop2 : ∀ s, op.response200 = some s → SchemaOk spec s)
    (hop3 : ∀ s, op.response201 = some s → SchemaOk spec s) :
    ∃ E, buildOutputSchemaExpression spec op = .ok E := by
  unfold buildOutputSchemaExpression
  have hresp : ∀ s, (match op.response200 with
      | some s' => some s'
      | none => op.response201) = some s → SchemaOk spec s := by
    intro s hs
    cases h200 : op.response200 with
    | some s' =>
      rw [h200] at hs
      injection hs with h'
      exact h' ▸ hop2 s' h200
    | none =>
      rw [h200] at hs
      exact hop3 s hs
  cases hrs : (match op.response200 with
      | some s' => some s'
      | none => op.response201) with
  | none => exact ⟨_, rfl⟩
  | some responseSchema =>
    obtain ⟨resolved, seen', hderef, hres⟩ :=
      deref_total spec (some responseSchema) [] 0 htab
        (fun s' hs' => by injection hs' with h'; exact h' ▸ hresp _ hrs)
    simp only [hderef, exbind_ok]
    by_cases hsh : (resolved.type? == some "object" || resolved.props?.isSome) = true
    · rw [if_pos hsh]
      obtain ⟨E, hE⟩ := zodF_total (MAX_SCHEMA_DEPTH + 1 - 0) spec
        (some responseSchema) Mode.output 0 [] htab
        (fun s' hs' => by injection hs' with h'; exact h' ▸ hresp _ hrs)
      have hE' : schemaToZodExpression spec (some responseSchema) Mode.output 0 [] =
        .ok E := hE
      simp only [hE', exbind_ok]
      exact ⟨_, rfl⟩
    · rw [if_neg hsh]
      exact ⟨_, rfl⟩

/-- Totality of `hasPagination` on closed input. -/
theorem hasPagination_total (spec : Spec) (op : Operation) (htab : TableOk spec)
    (hop : ∀ s, op.requestSchema = some s → SchemaOk spec s) :
    ∃ b, hasPagination spec op = .ok b := by
  unfold hasPagination
  cases hrs : op.requestSchema with
  | none => exact ⟨_, rfl⟩
  | some requestSchema =>
    obtain ⟨resolved, seen', hderef, _⟩ :=
      deref_total spec (some requestSchema) [] 0 htab
        (fun s' hs' => by injection hs' with h'; exact h' ▸ hop _ hrs)
    simp only [hderef, exbind_ok]
    exact ⟨_, rfl⟩

/-- Totality of `generateTool` on closed input. -/
theorem generateTool_total (spec : Spec) (pathKey : String) (op : Operation)
    (htab : TableOk spec) (hop : OpOk spec op) :
    ∃ t, generateTool spec pathKey op = .ok t := by
  obtain ⟨Ei, hEi⟩ := buildInput_total spec op htab hop.1
  obtain ⟨Eo, hEo⟩ := buildOutput_total spec op htab hop.2.1 hop.2.2
  obtain ⟨b, hb⟩ := hasPagination_total spec op htab hop.1
  unfold generateTool
  simp only [hEi, hEo, hb, exbind_ok]
  exact ⟨_, rfl⟩

/-- Totality of `generateTools` on a closed document: compilation succeeds
and emits the artifact. -/
theorem generateTools_total (spec : Spec) (h : SpecClosed spec) :
    ∃ ts, generateTools spec = .ok ts := by
  have htab := specClosed_tableOk spec h
  have hmapM : ∀ (pkpi : String × PathItem), pkpi ∈ spec.paths →
      ∀ (ops : List Operation), (∀ op ∈ ops, op ∈ opsOfPathItem pkpi.2) →
      ∃ us, ops.mapM (generateTool spec pkpi.1) = .ok us := by
    intro pkpi hp ops
    induction ops with
    | nil => intro _; exact ⟨[], by rw [List.mapM_nil]; rfl⟩
    | cons op rest ih =>
      intro hops
      obtain ⟨t, ht⟩ := generateTool_total spec pkpi.1 op htab
        (specClosed_opOk spec h pkpi hp op (hops op (List.mem_cons_self op rest)))
      obtain ⟨us, hus⟩ := ih (fun op' hop' => hops op' (List.mem_cons_of_mem op hop'))
      refine ⟨t :: us, ?_⟩
      rw [List.mapM_cons, ht, exbind_ok, hus, exbind_ok]
      rfl
  have haux : ∀ (ps : List (String × PathItem)), (∀ pkpi ∈ ps, pkpi ∈ spec.paths) →
      ∀ (acc : List ToolDefinition),
      ∃ ts, ps.foldlM (fun acc pkpi => do
        let us ← (opsOfPathItem pkpi.2).mapM (generateTool spec pkpi.1)
        pure (acc ++ us)) acc = .ok ts := by
    intro ps
    induction ps with
    | nil => intro _ acc; exact ⟨acc, rfl⟩
    | cons pkpi rest ih =>
      intro hps acc
      obtain ⟨us, hus⟩ := hmapM pkpi (hps pkpi (List.mem_cons_self pkpi rest))
        (opsOfPathItem pkpi.2) (fun op hop => hop)
      obtain ⟨ts, hts⟩ := ih (fun p hp => hps p (List.mem_cons_of_mem pkpi hp)) (acc ++ us)
      refine ⟨ts, ?_⟩
      rw [List.foldlM_cons, hus, exbind_ok, expure_bind]
      exact hts
  exact haux spec.paths (fun _ hp => hp) []

/-- C5 counterexample: `unreachSpec` contains a reference pointer
(`#/missing`, inside the unused table entry) that cannot be looked up in
the document's reference table, yet the compilation run does not abort: it
succeeds and emits the full one-tool artifact. -/
theorem c5_counterexample :
    "#/missing" ∈ unreachSpec.allRefsList ∧
    lookupRef unreachSpec "#/missing" = none ∧
    ∃ ts, generateTools unreachSpec = .ok ts ∧
      ts.map (fun t => t.name) = ["outline_x"] := by
  refine ⟨?_, rfl, ⟨_, rfl, rfl⟩⟩
  simp [unreachSpec, Spec.allRefsList, refMissingSchema, Schema.refsList,
    refsListAO, refsListPO, refsListAP, refsListIT, bareOp, opsOfPathItem,
    Operation.refsList]

/-- C5 (amended): (i) resolving a pointer-form reference that is absent
from the document's reference table raises exactly the error naming the
offending reference; (ii) on a document whose operation request schema is
a dangling pointer the whole compilation run aborts with that error and no
tool-definition artifact is emitted (`Except.error` carries no partial
list); (iii) for every document with no dangling reference anywhere
(`SpecClosed`) the run never raises this error: it succeeds with an
artifact.  The original claim's first half is refuted by
`c5_counterexample`: only references actually resolved during compilation
abort the run; a dangling pointer in an unreached table entry is ignored. -/
theorem c5_amended :
    (∀ (spec : Spec) (r : String), refHasPointerForm r = true →
        lookupRef spec r = none →
        resolveRef spec r = .error ("Unresolvable $ref: " ++ r)) ∧
    generateTools danglingSpec = .error "Unresolvable $ref: #/missing" ∧
    (∀ spec : Spec, SpecClosed spec → ∃ ts, generateTools spec = .ok ts) := by
  refine ⟨?_, rfl, fun spec h => generateTools_total spec h⟩
  intro spec r h1 h2
  simp [resolveRef, h1, h2]

/-- C5 witness: the amended theorem applied at the empty document and the
missing pointer `#/nope`, and at the concrete closed document. -/
theorem c5_witness :
    resolveRef emptySpec "#/nope" = .error ("Unresolvable $ref: " ++ "#/nope") ∧
    ∃ ts, generateTools closedDocSpec = .ok ts := by
  refine ⟨c5_amended.1 emptySpec "#/nope" rfl rfl,
    c5_amended.2.2 closedDocSpec ?_⟩
  intro r hr
  simp [closedDocSpec, Spec.allRefsList, Operation.refsList, opsOfPathItem,
    Schema.refsList, refsListAO, refsListPO, refsListAP, refsListIT,
    refASchema, strSchema] at hr
  subst hr
  exact ⟨rfl, rfl⟩
